import Mathlib

/-
Shallow embedding of the `precedence_config` repository
(src/config_precidence_rules.rs and src/config_value.rs).

Modelling conventions:
- Rust `HashMap` values are represented by association lists; iterating a
  `HashMap` is represented by the order of the association list (the Rust
  iteration order is unspecified, so theorems that depend on an order
  quantify over it or state permutation facts).
- Rust `BTreeMap` / `BTreeSet` values are represented by sorted association
  lists built by ordered insertion, which is their iteration semantics.
- `i32` / `i64` are represented by `Int` (the code never exercises wrap
  around; the `i64` string parser checks the two's-complement range exactly
  as `i64::from_str` does), `u8` flags by `Nat`.
- `anyhow::Result` is represented by `Except` with one error constructor per
  `bail!` / `anyhow!` site, carrying the data interpolated into the message.
- `f64` parsing (`"dec"` values) is represented by an exact decimal-to-`Rat`
  parser with the grammar of `f64::from_str` (sign, digits, optional
  fraction, optional exponent); the `inf`/`NaN` literals and the final
  round-to-nearest-double step are not modelled, and no claim exercises
  them.
- `chrono::NaiveDateTime::parse_from_str` with format `%Y-%m-%dT%H:%M:%SZ`
  is represented item by item as chrono processes the format string: each
  numeric field trims leading Unicode whitespace and is parsed unpadded
  and greedily (1..=2 digits; 1..=4 for the year, unbounded after an
  explicit sign), literal characters must match exactly, trailing input
  is rejected, the date is validated as in `NaiveDate::from_ymd_opt`
  (proleptic Gregorian, year range -262144..=262143), and second 60 is
  accepted as a leap second.
-/

deriving instance DecidableEq for Except

/- ---------------------------------------------------------------- -/
/- Data model of src/config_precidence_rules.rs                      -/
/- ---------------------------------------------------------------- -/

/-- Matrix row (wide form): a rank plus dynamic attribute columns.
Embeds `MatrixRow { rank: i32, attrs: HashMap<String, u8> }`. -/
structure MatrixRow where
  rank : Int
  attrs : List (String × Nat)
deriving DecidableEq, Repr

/-- Canonical tall row. Embeds
`ConfigPrecedenceRule { config_version_id, rank, attr_id, match_type }`. -/
structure ConfigPrecedenceRule where
  config_version_id : Int
  rank : Int
  attr_id : Int
  match_type : Nat
deriving DecidableEq, Repr

/-- One constructor per `bail!` site of the two conversion functions,
carrying the data interpolated into the error message. -/
inductive ConvErr where
  | invalidRank (rank : Int)
  | invalidMatchType (matchType : Nat) (attrName : String)
  | invalidMatchTypeId (matchType : Nat) (attrId : Int)
  | duplicateKey (rank : Int) (attrId : Int)
  | duplicateKeyName (rank : Int) (attrName : String)
  | emptyResult
  | noRowsToEmit
deriving DecidableEq, Repr

/-- Classifier for the `MATCH_TYPE must be 0 or 1` failures of either
conversion direction. -/
def ConvErr.isInvalidMatchType : ConvErr → Bool
  | .invalidMatchType _ _ => true
  | .invalidMatchTypeId _ _ => true
  | _ => false

/-- Inner loop of `matrix_json_to_tall`: the `for (attr_name, match_type)
in row.attrs.iter()` body, threading the `seen` set and the `tall`
accumulator. -/
def rowStep (cvid : Int) (n2i : String → Option Int) (rank : Int) :
    List (String × Nat) → List (Int × Int) → List ConfigPrecedenceRule →
    Except ConvErr (List (Int × Int) × List ConfigPrecedenceRule)
  | [], seen, tall => .ok (seen, tall)
  | (attrName, matchType) :: rest, seen, tall =>
    match n2i attrName with
    | none => rowStep cvid n2i rank rest seen tall
    | some attrId =>
      if 1 < matchType then .error (.invalidMatchType matchType attrName)
      else if (rank, attrId) ∈ seen then .error (.duplicateKey rank attrId)
      else rowStep cvid n2i rank rest ((rank, attrId) :: seen)
          (tall ++ [⟨cvid, rank, attrId, matchType⟩])

/-- Outer loop of `matrix_json_to_tall`: the `for row in matrix_rows` body. -/
def rowsLoop (cvid : Int) (n2i : String → Option Int) :
    List MatrixRow → List (Int × Int) → List ConfigPrecedenceRule →
    Except ConvErr (List (Int × Int) × List ConfigPrecedenceRule)
  | [], seen, tall => .ok (seen, tall)
  | row :: rest, seen, tall =>
    if row.rank ≤ 0 then .error (.invalidRank row.rank)
    else
      match rowStep cvid n2i row.rank row.attrs seen tall with
      | .error e => .error e
      | .ok st => rowsLoop cvid n2i rest st.1 st.2

/-- Embeds `matrix_json_to_tall`, starting after the serde deserialization
step (the rows are already decoded). -/
def matrix_json_to_tall (rows : List MatrixRow) (cvid : Int)
    (n2i : String → Option Int) : Except ConvErr (List ConfigPrecedenceRule) :=
  match rowsLoop cvid n2i rows [] [] with
  | .error e => .error e
  | .ok st => if st.2.isEmpty then .error .emptyResult else .ok st.2

/-- Lexicographic strict order on character lists (by code point). -/
def charListLtB : List Char → List Char → Bool
  | _, [] => false
  | [], _ :: _ => true
  | a :: as, b :: bs =>
    if a < b then true else if b < a then false else charListLtB as bs

/-- The `Ord` used by `BTreeMap<String, _>`: Rust compares strings by UTF-8
bytes, which coincides with lexicographic comparison of code points. -/
def strLtB (a b : String) : Bool := charListLtB a.toList b.toList

/-- `BTreeMap<String, u8>::insert` on the sorted-association-list
representation (overwrites an equal key; for this code base the key is
always fresh because duplicates were rejected first). -/
def insertInner (name : String) (mt : Nat) : List (String × Nat) → List (String × Nat)
  | [] => [(name, mt)]
  | (n, m) :: rest =>
    if strLtB name n then (name, mt) :: (n, m) :: rest
    else if name = n then (name, mt) :: rest
    else (n, m) :: insertInner name mt rest

/-- `by_rank.entry(rank).or_default().insert(attr_name, match_type)` on the
nested sorted-association-list representation of
`BTreeMap<i32, BTreeMap<String, u8>>`. -/
def insertByRank (rank : Int) (name : String) (mt : Nat) :
    List (Int × List (String × Nat)) → List (Int × List (String × Nat))
  | [] => [(rank, [(name, mt)])]
  | (r, attrs) :: rest =>
    if rank < r then (rank, [(name, mt)]) :: (r, attrs) :: rest
    else if rank = r then (r, insertInner name mt attrs) :: rest
    else (r, attrs) :: insertByRank rank name mt rest

/-- Loop of `tall_to_matrix_rows`: the `for r in tall` body, threading the
`seen` set and the `by_rank` nested map. -/
def tallLoop (i2n : Int → Option String) :
    List ConfigPrecedenceRule → List (Int × String) →
    List (Int × List (String × Nat)) →
    Except ConvErr (List (Int × String) × List (Int × List (String × Nat)))
  | [], seen, byRank => .ok (seen, byRank)
  | r :: rest, seen, byRank =>
    if r.rank ≤ 0 then .error (.invalidRank r.rank)
    else if 1 < r.match_type then
      .error (.invalidMatchTypeId r.match_type r.attr_id)
    else
      match i2n r.attr_id with
      | none => tallLoop i2n rest seen byRank
      | some attrName =>
        if (r.rank, attrName) ∈ seen then
          .error (.duplicateKeyName r.rank attrName)
        else tallLoop i2n rest ((r.rank, attrName) :: seen)
            (insertByRank r.rank attrName r.match_type byRank)

/-- Embeds `tall_to_matrix_rows`. The final `attrs.into_iter().collect()`
into a `HashMap` is represented by keeping the `BTreeMap` iteration order in
the emitted association list (a Rust `HashMap` itself has no specified
iteration order; see the development on the ordering claim). -/
def tall_to_matrix_rows (tall : List ConfigPrecedenceRule)
    (i2n : Int → Option String) : Except ConvErr (List MatrixRow) :=
  match tallLoop i2n tall [] [] with
  | .error e => .error e
  | .ok st =>
    if st.2.isEmpty then .error .noRowsToEmit
    else .ok (st.2.map fun g => ⟨g.1, g.2⟩)

/- ---------------------------------------------------------------- -/
/- Derived views used to state properties of the conversions         -/
/- ---------------------------------------------------------------- -/

/-- The `(rank, attr_name, flag)` triples of one matrix row. -/
def rowEntries (row : MatrixRow) : List (Int × String × Nat) :=
  row.attrs.map fun a => (row.rank, a.1, a.2)

/-- The `(rank, attr_name, flag)` triples of a matrix input, flattened in
input order. -/
def matrixEntries (rows : List MatrixRow) : List (Int × String × Nat) :=
  rows.flatMap rowEntries

/-- The `(rank, attr_id)` pairs of the resolved entries of one attribute
list, in list order. -/
def attrPairs (n2i : String → Option Int) (rank : Int)
    (attrs : List (String × Nat)) : List (Int × Int) :=
  attrs.filterMap fun a => (n2i a.1).map fun i => (rank, i)

/-- The `(rank, attr_id)` pairs of the entries whose attribute name
resolves, in input order: exactly the keys `matrix_json_to_tall` feeds to
its `seen` set. -/
def resolvedPairs (rows : List MatrixRow) (n2i : String → Option Int) :
    List (Int × Int) :=
  rows.flatMap fun row => attrPairs n2i row.rank row.attrs

/-- The tall rules produced from the resolved entries of one attribute
list. -/
def attrRules (cvid : Int) (n2i : String → Option Int) (rank : Int)
    (attrs : List (String × Nat)) : List ConfigPrecedenceRule :=
  attrs.filterMap fun a =>
    (n2i a.1).map fun i => (⟨cvid, rank, i, a.2⟩ : ConfigPrecedenceRule)

/-- The tall rules `matrix_json_to_tall` produces on success. -/
def tallRules (rows : List MatrixRow) (cvid : Int)
    (n2i : String → Option Int) : List ConfigPrecedenceRule :=
  rows.flatMap fun row => attrRules cvid n2i row.rank row.attrs

/-- The `(rank, attr_name, flag)` triples of the tall rules whose attr_id
resolves, in input order. -/
def ruleEntries (tall : List ConfigPrecedenceRule)
    (i2n : Int → Option String) : List (Int × String × Nat) :=
  tall.filterMap fun r => (i2n r.attr_id).map fun n => (r.rank, n, r.match_type)

/-- The `(rank, attr_name)` pairs of the tall rules whose attr_id resolves:
exactly the keys `tall_to_matrix_rows` feeds to its `seen` set. -/
def namePairs (tall : List ConfigPrecedenceRule)
    (i2n : Int → Option String) : List (Int × String) :=
  tall.filterMap fun r => (i2n r.attr_id).map fun n => (r.rank, n)

/-- Flatten the nested `by_rank` map back to `(rank, name, flag)` triples. -/
def flattenGroups (m : List (Int × List (String × Nat))) :
    List (Int × String × Nat) :=
  m.flatMap fun g => g.2.map fun a => (g.1, a.1, a.2)

/-- The step function folded by `tall_to_matrix_rows` over resolved
entries. -/
def insertEntry (m : List (Int × List (String × Nat)))
    (e : Int × String × Nat) : List (Int × List (String × Nat)) :=
  insertByRank e.1 e.2.1 e.2.2 m

/-- First element of the list that repeats an earlier element, given the
elements already seen. -/
def firstDupAux {α : Type} [DecidableEq α] : List α → List α → Option α
  | _, [] => none
  | seen, x :: rest => if x ∈ seen then some x else firstDupAux (x :: seen) rest

/-- First element of the list that duplicates an earlier one, in list
order. -/
def firstDup {α : Type} [DecidableEq α] (l : List α) : Option α :=
  firstDupAux [] l

/- ---------------------------------------------------------------- -/
/- validate_ranks_contiguous_and_triangular                          -/
/- ---------------------------------------------------------------- -/

/-- Errors of `validate_ranks_contiguous_and_triangular`, one constructor
per `anyhow!` site with the interpolated data. -/
inductive ValErr where
  | emptyInput
  | wrongRankCount (found : Nat) (expected : Int) (attrCount : Nat)
  | rankGap (observed : Int) (expected : Int)
deriving DecidableEq, Repr

/-- Classifier for the contiguity-check failure. -/
def ValErr.isRankGap : ValErr → Bool
  | .rankGap _ _ => true
  | _ => false

/-- `T(A) = A * (A + 1) / 2`, as the code computes it over `i32`. -/
def triangular (attrCount : Nat) : Int :=
  (attrCount : Int) * ((attrCount : Int) + 1) / 2

/-- `BTreeSet<i32>::insert` on the sorted-distinct-list representation. -/
def insertSortedDedup (x : Int) : List Int → List Int
  | [] => [x]
  | y :: rest =>
    if x < y then x :: y :: rest
    else if x = y then y :: rest
    else y :: insertSortedDedup x rest

/-- `tall.iter().map(|r| r.rank).collect::<BTreeSet<i32>>()`: the distinct
ranks, in ascending order. -/
def distinctRanksSorted (tall : List ConfigPrecedenceRule) : List Int :=
  tall.foldl (fun s r => insertSortedDedup r.rank s) []

/-- The contiguity loop: walk the sorted distinct ranks against
`expected = 1, 2, …`, failing at the first mismatch. -/
def contiguityCheck : List Int → Int → Except ValErr Unit
  | [], _ => .ok ()
  | r :: rest, expected =>
    if r ≠ expected then .error (.rankGap r expected)
    else contiguityCheck rest (expected + 1)

/-- First `(observed, expected)` mismatch of the contiguity walk. -/
def firstMismatch : List Int → Int → Option (Int × Int)
  | [], _ => none
  | r :: rest, expected =>
    if r ≠ expected then some (r, expected) else firstMismatch rest (expected + 1)

/-- `[s, s+1, …, s+n-1]`. -/
def rangeInts : Int → Nat → List Int
  | _, 0 => []
  | s, n + 1 => s :: rangeInts (s + 1) n

/-- Embeds `validate_ranks_contiguous_and_triangular`. -/
def validate_ranks_contiguous_and_triangular
    (tall : List ConfigPrecedenceRule) (attrCount : Nat) : Except ValErr Unit :=
  if tall.isEmpty then .error .emptyInput
  else
    let tA := triangular attrCount
    let ranks := distinctRanksSorted tall
    if (ranks.length : Int) ≠ tA then
      .error (.wrongRankCount ranks.length tA attrCount)
    else contiguityCheck ranks 1

/- ---------------------------------------------------------------- -/
/- Data model of src/config_value.rs                                 -/
/- ---------------------------------------------------------------- -/

/-- Calendar timestamp produced by the `dt` parser (naive, UTC). The year
is signed, as in `chrono::NaiveDate`. `second` keeps the value the parser
read, 0..=60: chrono represents a parsed leap second 60 as second 59 with
an extra second worth of nanoseconds, which this field encodes as 60. -/
structure DateTimeVal where
  year : Int
  month : Nat
  day : Nat
  hour : Nat
  minute : Nat
  second : Nat
deriving DecidableEq, Repr

/-- Embeds `TypedValue`. `Dec` carries the exactly-parsed decimal as a
rational (see the module comment on `f64`). -/
inductive TypedValue where
  | int (v : Int)
  | dec (v : Rat)
  | str (v : String)
  | bool (v : Bool)
  | dt (v : DateTimeVal)
deriving DecidableEq, Repr

/-- Embeds `ConfigValue`. -/
structure ConfigValue where
  match_id : Int
  attr_id : Int
  role : String
  value : TypedValue
deriving DecidableEq, Repr

/-- Embeds `AttrMeta`. -/
structure AttrMeta where
  attr_id : Int
  attr_name : String
  data_type : String
  role : String
deriving DecidableEq, Repr

/-- Embeds `RawParam`. -/
structure RawParam where
  key : String
  type_ : String
  value : String
deriving DecidableEq, Repr

/-- One constructor per failure site of `parse_config_values`.
`typeParseError` stands for the error propagated by `?` from the per-type
parser, keyed by the declared type and the raw string. -/
inductive ParamErr where
  | unknownAttribute (key : String)
  | wrongRole (key : String) (role : String)
  | typeParseError (dataType : String) (raw : String)
  | unsupportedDataType (dataType : String)
deriving DecidableEq, Repr

/-- Numeric value of a digit list (most significant first); the caller
checks that every character is a digit. -/
def digitsNat (ds : List Char) : Nat :=
  ds.foldl (fun a c => a * 10 + (c.toNat - 48)) 0

/-- `i64::MAX`. -/
def i64Max : Int := 2 ^ 63 - 1

/-- `i64::MIN`. -/
def i64Min : Int := -(2 ^ 63)

/-- `str::parse::<i64>`: optional sign, one or more ASCII digits, value
within the `i64` range. -/
def parseI64 (s : String) : Option Int :=
  match s.toList with
  | '+' :: rest =>
    if rest ≠ [] ∧ rest.all Char.isDigit then
      if (digitsNat rest : Int) ≤ i64Max then some (digitsNat rest : Int)
      else none
    else none
  | '-' :: rest =>
    if rest ≠ [] ∧ rest.all Char.isDigit then
      if i64Min ≤ -(digitsNat rest : Int) then some (-(digitsNat rest : Int))
      else none
    else none
  | cs =>
    if cs ≠ [] ∧ cs.all Char.isDigit then
      if (digitsNat cs : Int) ≤ i64Max then some (digitsNat cs : Int)
      else none
    else none

/-- Mantissa of the `f64::from_str` grammar:
`digits ['.' digits?] | '.' digits`, returning its exact rational value and
the unconsumed remainder. -/
def parseMantissa (cs : List Char) : Option (Rat × List Char) :=
  let intPart := cs.takeWhile Char.isDigit
  let rest := cs.dropWhile Char.isDigit
  match rest with
  | '.' :: rest2 =>
    let fracPart := rest2.takeWhile Char.isDigit
    let rest3 := rest2.dropWhile Char.isDigit
    if intPart.isEmpty ∧ fracPart.isEmpty then none
    else
      some ((digitsNat intPart : Rat) +
        (digitsNat fracPart : Rat) / (10 : Rat) ^ fracPart.length, rest3)
  | _ => if intPart.isEmpty then none else some ((digitsNat intPart : Rat), rest)

/-- Exponent part of the `f64::from_str` grammar (after `e`/`E`):
optional sign, one or more digits. -/
def parseExpPart : List Char → Option Int
  | [] => none
  | '+' :: ds =>
    if ds ≠ [] ∧ ds.all Char.isDigit then some (digitsNat ds : Int) else none
  | '-' :: ds =>
    if ds ≠ [] ∧ ds.all Char.isDigit then some (-(digitsNat ds : Int)) else none
  | ds => if ds.all Char.isDigit then some (digitsNat ds : Int) else none

/-- Unsigned decimal of the `f64::from_str` grammar with optional
exponent. -/
def parseDecimalCore (cs : List Char) : Option Rat :=
  (parseMantissa cs).bind fun m =>
    match m.2 with
    | [] => some m.1
    | 'e' :: rest => (parseExpPart rest).map fun e => m.1 * (10 : Rat) ^ e
    | 'E' :: rest => (parseExpPart rest).map fun e => m.1 * (10 : Rat) ^ e
    | _ => none

/-- `str::parse::<f64>` on decimal notation, exactly (see module comment):
optional sign, then the unsigned grammar. -/
def parseF64 (s : String) : Option Rat :=
  match s.toList with
  | '+' :: rest => parseDecimalCore rest
  | '-' :: rest => (parseDecimalCore rest).map fun v => -v
  | cs => parseDecimalCore cs

/-- `str::parse::<bool>`: exactly the case-sensitive literals. -/
def parseBoolLit (s : String) : Option Bool :=
  if s = "true" then some true else if s = "false" then some false else none

/-- Proleptic Gregorian leap year, for a signed year as in chrono (`%` is
the nonnegative remainder, which agrees with divisibility testing in the
Rust source). -/
def isLeapYear (y : Int) : Bool :=
  (y % 4 == 0 && y % 100 != 0) || y % 400 == 0

/-- Days in a month of the proleptic Gregorian calendar. -/
def daysInMonth (y : Int) (m : Nat) : Nat :=
  if m = 2 then (if isLeapYear y then 29 else 28)
  else if m = 4 ∨ m = 6 ∨ m = 9 ∨ m = 11 then 30
  else 31

/-- The Unicode White_Space code points: what Rust's `char::is_whitespace`
(used by the `str::trim_start` inside chrono's numeric-field parser)
recognizes. -/
def isRustWhitespace (c : Char) : Bool :=
  c.toNat = 0x9 || c.toNat = 0xA || c.toNat = 0xB || c.toNat = 0xC ||
  c.toNat = 0xD || c.toNat = 0x20 || c.toNat = 0x85 || c.toNat = 0xA0 ||
  c.toNat = 0x1680 || (0x2000 ≤ c.toNat && c.toNat ≤ 0x200A) ||
  c.toNat = 0x2028 || c.toNat = 0x2029 || c.toNat = 0x202F ||
  c.toNat = 0x205F || c.toNat = 0x3000

/-- chrono's `scan::number(s, 1, max)`: consume between 1 and `maxDigits`
ASCII digits greedily, returning the value and the unconsumed remainder.
(chrono accumulates into an `i64` and fails on overflow; for the `dt`
format every field value large enough to overflow is rejected by the range
checks below, so the overflow failure is not modelled separately.) -/
def scanNumber (maxDigits : Nat) (cs : List Char) : Option (Nat × List Char) :=
  let ds := (cs.takeWhile Char.isDigit).take maxDigits
  if ds.isEmpty then none
  else some (digitsNat ds, cs.drop ds.length)

/-- chrono's `scan::number(s, 1, usize::MAX)`: like `scanNumber` with no
upper bound on the digit count. -/
def scanNumberAll (cs : List Char) : Option (Nat × List Char) :=
  let ds := cs.takeWhile Char.isDigit
  if ds.isEmpty then none
  else some (digitsNat ds, cs.drop ds.length)

/-- One unsigned numeric item of chrono's parser: trim leading whitespace,
then scan 1..=`maxDigits` digits (chrono parses numeric fields unpadded,
with a minimum width of 1). -/
def parseNumericField (maxDigits : Nat) (cs : List Char) :
    Option (Nat × List Char) :=
  scanNumber maxDigits (cs.dropWhile isRustWhitespace)

/-- The `%Y` item, which chrono parses as signed: trim leading whitespace;
with an explicit `-` or `+` sign the digit count is unbounded, without a
sign at most 4 digits are consumed. -/
def parseYearField (cs : List Char) : Option (Int × List Char) :=
  match cs.dropWhile isRustWhitespace with
  | '-' :: rest => (scanNumberAll rest).map fun v => (-(v.1 : Int), v.2)
  | '+' :: rest => (scanNumberAll rest).map fun v => ((v.1 : Int), v.2)
  | cs2 => (scanNumber 4 cs2).map fun v => ((v.1 : Int), v.2)

/-- A literal item of chrono's parser: the next character must match
exactly (no whitespace trimming for literals). -/
def expectLit (c : Char) : List Char → Option (List Char)
  | [] => none
  | x :: rest => if x = c then some rest else none

/-- `NaiveDate::from_ymd_opt`: year within chrono's range
(`i32::MIN >> 13` to `i32::MAX >> 13`), month 1..=12, day valid for the
month in the proleptic Gregorian calendar. -/
def validDate (y : Int) (mo d : Nat) : Bool :=
  -262144 ≤ y && y ≤ 262143 && 1 ≤ mo && mo ≤ 12 &&
  1 ≤ d && d ≤ daysInMonth y mo

/-- `NaiveDateTime::parse_from_str(value, "%Y-%m-%dT%H:%M:%SZ")`, item by
item as chrono's parser processes the format: each numeric field trims
leading whitespace and is parsed unpadded (1..=2 digits for month, day,
hour, minute, second; 1..=4 for the year, unbounded with an explicit
sign), the `-`, `T`, `:`, `Z` literals must match exactly, trailing input
is an error, the date is validated by `from_ymd_opt`, the hour is 0..=23,
the minute 0..=59, and the second 0..=60 — chrono accepts 60 as a leap
second. -/
def parseDt (s : String) : Option DateTimeVal := do
  let (y, r1) ← parseYearField s.toList
  let r2 ← expectLit '-' r1
  let (mo, r3) ← parseNumericField 2 r2
  let r4 ← expectLit '-' r3
  let (d, r5) ← parseNumericField 2 r4
  let r6 ← expectLit 'T' r5
  let (h, r7) ← parseNumericField 2 r6
  let r8 ← expectLit ':' r7
  let (mi, r9) ← parseNumericField 2 r8
  let r10 ← expectLit ':' r9
  let (se, r11) ← parseNumericField 2 r10
  let r12 ← expectLit 'Z' r11
  if r12.isEmpty ∧ validDate y mo d ∧ h ≤ 23 ∧ mi ≤ 59 ∧ se ≤ 60 then
    some ⟨y, mo, d, h, mi, se⟩
  else none

/-- The `match meta.data_type.as_str()` dispatch of `parse_config_values`. -/
def parseTyped (dataType : String) (raw : String) : Except ParamErr TypedValue :=
  if dataType = "int" then
    match parseI64 raw with
    | some v => .ok (.int v)
    | none => .error (.typeParseError "int" raw)
  else if dataType = "dec" then
    match parseF64 raw with
    | some v => .ok (.dec v)
    | none => .error (.typeParseError "dec" raw)
  else if dataType = "str" then .ok (.str raw)
  else if dataType = "bool" then
    match parseBoolLit raw with
    | some v => .ok (.bool v)
    | none => .error (.typeParseError "bool" raw)
  else if dataType = "dt" then
    match parseDt raw with
    | some v => .ok (.dt v)
    | none => .error (.typeParseError "dt" raw)
  else .error (.unsupportedDataType dataType)

/-- The body of the `for param in raw_params` loop: lookup, role check,
type dispatch, `ConfigValue` construction. -/
def parseOneParam (matchId : Int) (attrLookup : String → Option AttrMeta)
    (p : RawParam) : Except ParamErr ConfigValue :=
  match attrLookup p.key with
  | none => .error (.unknownAttribute p.key)
  | some meta =>
    if meta.role ≠ "param" then .error (.wrongRole p.key meta.role)
    else
      match parseTyped meta.data_type p.value with
      | .error e => .error e
      | .ok v => .ok ⟨matchId, meta.attr_id, meta.role, v⟩

/-- Embeds `parse_config_values`. -/
def parse_config_values (matchId : Int) (rawParams : List RawParam)
    (attrLookup : String → Option AttrMeta) : Except ParamErr (List ConfigValue) :=
  match rawParams with
  | [] => .ok []
  | p :: rest =>
    match parseOneParam matchId attrLookup p with
    | .error e => .error e
    | .ok v =>
      match parse_config_values matchId rest attrLookup with
      | .error e => .error e
      | .ok vs => .ok (v :: vs)

/- ---------------------------------------------------------------- -/
/- Concrete fixtures used by witnesses and counterexamples           -/
/- ---------------------------------------------------------------- -/

/-- Example name-to-id mapping `{a ↦ 1, b ↦ 2, c ↦ 3}`. -/
def n2iEx : String → Option Int := fun s =>
  if s = "a" then some 1 else if s = "b" then some 2
  else if s = "c" then some 3 else none

/-- Example id-to-name mapping `{1 ↦ a, 2 ↦ b, 3 ↦ c}`, inverse of
`n2iEx`. -/
def i2nEx : Int → Option String := fun i =>
  if i = 1 then some "a" else if i = 2 then some "b"
  else if i = 3 then some "c" else none

/-- Rule with the given rank, over attribute id 1, used for rank-set
examples. -/
def mkRule (rank : Int) : ConfigPrecedenceRule := ⟨1, rank, 1, 1⟩

/-- Rule set realizing a given rank list. -/
def rulesOfRanks (rs : List Int) : List ConfigPrecedenceRule := rs.map mkRule

/-- Example attribute metadata lookup for the value parser. -/
def attrLookupEx : String → Option AttrMeta := fun k =>
  if k = "max_orders_day" then some ⟨10, "max_orders_day", "int", "param"⟩
  else if k = "discount_pct" then some ⟨11, "discount_pct", "dec", "param"⟩
  else if k = "region" then some ⟨12, "region", "str", "match"⟩
  else none

/- ---------------------------------------------------------------- -/
/- Order facts for the string comparator                             -/
/- ---------------------------------------------------------------- -/

theorem charListLtB_asymm :
    ∀ x y : List Char, charListLtB x y = true → charListLtB y x = false := by
  intro x
  induction x with
  | nil =>
    intro y h
    cases y with
    | nil => simp [charListLtB] at h
    | cons b bs => simp [charListLtB]
  | cons a as ih =>
    intro y h
    cases y with
    | nil => simp [charListLtB] at h
    | cons b bs =>
      simp only [charListLtB] at h ⊢
      by_cases hab : a < b
      · simp [hab, lt_asymm hab]
      · by_cases hba : b < a
        · simp [hab, hba] at h
        · simp only [hab, hba, if_false] at h
          simp [hab, hba, ih bs h]

theorem charListLtB_eq_of_not :
    ∀ x y : List Char, charListLtB x y = false → charListLtB y x = false → x = y := by
  intro x
  induction x with
  | nil =>
    intro y h₁ _
    cases y with
    | nil => rfl
    | cons b bs => simp [charListLtB] at h₁
  | cons a as ih =>
    intro y h₁ h₂
    cases y with
    | nil => simp [charListLtB] at h₂
    | cons b bs =>
      simp only [charListLtB] at h₁ h₂
      by_cases hab : a < b
      · simp [hab] at h₁
      · by_cases hba : b < a
        · simp [hab, hba] at h₂
        · simp only [hab, hba, if_false] at h₁ h₂
          have hc : a = b := le_antisymm (not_lt.1 hba) (not_lt.1 hab)
          rw [hc, ih bs h₁ h₂]

theorem strLtB_asymm (a b : String) (h : strLtB a b = true) : strLtB b a = false :=
  charListLtB_asymm _ _ h

theorem strLtB_eq_of_not (a b : String) (h₁ : strLtB a b = false)
    (h₂ : strLtB b a = false) : a = b := by
  have hl : a.toList = b.toList := charListLtB_eq_of_not _ _ h₁ h₂
  cases a with
  | mk da =>
    cases b with
    | mk db => simpa [String.toList] using congrArg String.mk hl

theorem strLtB_irrefl (a : String) : strLtB a a = false := by
  cases h : strLtB a a with
  | false => rfl
  | true =>
    have hf := strLtB_asymm a a h
    rw [h] at hf
    exact Bool.noConfusion hf

/- ---------------------------------------------------------------- -/
/- firstDupAux                                                       -/
/- ---------------------------------------------------------------- -/

theorem firstDupAux_append {α : Type} [DecidableEq α] (l₁ l₂ seen : List α) :
    firstDupAux seen (l₁ ++ l₂) =
      match firstDupAux seen l₁ with
      | some p => some p
      | none => firstDupAux (l₁.reverse ++ seen) l₂ := by
  induction l₁ generalizing seen with
  | nil => simp [firstDupAux]
  | cons x rest ih =>
    by_cases hx : x ∈ seen
    · simp [firstDupAux, hx]
    · simp only [List.cons_append, firstDupAux, hx, if_false, List.append_eq]
      rw [List.reverse_cons, List.append_assoc, List.singleton_append]
      exact ih (x :: seen)

theorem firstDupAux_eq_none_iff {α : Type} [DecidableEq α] (seen l : List α) :
    firstDupAux seen l = none ↔ l.Nodup ∧ ∀ x ∈ l, x ∉ seen := by
  induction l generalizing seen with
  | nil => simp [firstDupAux]
  | cons x rest ih =>
    simp only [firstDupAux]
    by_cases hx : x ∈ seen
    · simp only [hx, if_true]
      constructor
      · intro h; exact Option.noConfusion h
      · intro h; exact absurd hx (h.2 x (List.mem_cons_self x rest))
    · simp only [hx, if_false, ih, List.nodup_cons]
      constructor
      · rintro ⟨hnd, hmem⟩
        refine ⟨⟨fun hxr => ?_, hnd⟩, ?_⟩
        · exact absurd (List.mem_cons_self x seen) (hmem x hxr)
        · intro y hy
          rcases List.mem_cons.1 hy with rfl | hy'
          · exact hx
          · intro hysn
            exact (hmem y hy') (List.mem_cons_of_mem x hysn)
      · rintro ⟨⟨hxr, hnd⟩, hmem⟩
        refine ⟨hnd, fun y hy hymem => ?_⟩
        rcases List.mem_cons.1 hymem with rfl | hysn
        · exact hxr hy
        · exact (hmem y (List.mem_cons_of_mem x hy)) hysn

/- ---------------------------------------------------------------- -/
/- Loop characterizations for matrix_json_to_tall                    -/
/- ---------------------------------------------------------------- -/

theorem attrPairs_cons_none (n2i : String → Option Int) (rank : Int)
    (rest : List (String × Nat)) (name : String) (mt : Nat)
    (h : n2i name = none) :
    attrPairs n2i rank ((name, mt) :: rest) = attrPairs n2i rank rest := by
  simp [attrPairs, List.filterMap_cons, h]

theorem attrPairs_cons_some (n2i : String → Option Int) (rank : Int)
    (rest : List (String × Nat)) (name : String) (mt : Nat) (i : Int)
    (h : n2i name = some i) :
    attrPairs n2i rank ((name, mt) :: rest) =
      (rank, i) :: attrPairs n2i rank rest := by
  simp [attrPairs, List.filterMap_cons, h]

theorem attrRules_cons_none (cvid : Int) (n2i : String → Option Int)
    (rank : Int) (rest : List (String × Nat)) (name : String) (mt : Nat)
    (h : n2i name = none) :
    attrRules cvid n2i rank ((name, mt) :: rest) = attrRules cvid n2i rank rest := by
  simp [attrRules, List.filterMap_cons, h]

theorem attrRules_cons_some (cvid : Int) (n2i : String → Option Int)
    (rank : Int) (rest : List (String × Nat)) (name : String) (mt : Nat)
    (i : Int) (h : n2i name = some i) :
    attrRules cvid n2i rank ((name, mt) :: rest) =
      (⟨cvid, rank, i, mt⟩ : ConfigPrecedenceRule) :: attrRules cvid n2i rank rest := by
  simp [attrRules, List.filterMap_cons, h]

theorem rowStep_eq (cvid : Int) (n2i : String → Option Int) (rank : Int)
    (attrs : List (String × Nat)) (seen : List (Int × Int))
    (tall : List ConfigPrecedenceRule)
    (hf : ∀ a ∈ attrs, ∀ i, n2i a.1 = some i → a.2 ≤ 1) :
    rowStep cvid n2i rank attrs seen tall =
      match firstDupAux seen (attrPairs n2i rank attrs) with
      | some p => .error (.duplicateKey p.1 p.2)
      | none => .ok ((attrPairs n2i rank attrs).reverse ++ seen,
          tall ++ attrRules cvid n2i rank attrs) := by
  induction attrs generalizing seen tall with
  | nil => simp [rowStep, attrPairs, attrRules, firstDupAux]
  | cons a rest ih =>
    obtain ⟨name, mt⟩ := a
    have hfr : ∀ a ∈ rest, ∀ i, n2i a.1 = some i → a.2 ≤ 1 :=
      fun a ha i hi => hf a (List.mem_cons_of_mem _ ha) i hi
    cases hni : n2i name with
    | none =>
      rw [show rowStep cvid n2i rank ((name, mt) :: rest) seen tall =
            rowStep cvid n2i rank rest seen tall by simp [rowStep, hni],
        attrPairs_cons_none n2i rank rest name mt hni,
        attrRules_cons_none cvid n2i rank rest name mt hni]
      exact ih seen tall hfr
    | some i =>
      have hmt : ¬ 1 < mt :=
        not_lt.2 (hf (name, mt) (List.mem_cons_self _ _) i hni)
      rw [attrPairs_cons_some n2i rank rest name mt i hni,
        attrRules_cons_some cvid n2i rank rest name mt i hni]
      by_cases hmem : (rank, i) ∈ seen
      · rw [show rowStep cvid n2i rank ((name, mt) :: rest) seen tall =
              .error (.duplicateKey rank i) by simp [rowStep, hni, hmt, hmem]]
        simp [firstDupAux, hmem]
      · rw [show rowStep cvid n2i rank ((name, mt) :: rest) seen tall =
              rowStep cvid n2i rank rest ((rank, i) :: seen)
                (tall ++ [⟨cvid, rank, i, mt⟩]) by
            simp [rowStep, hni, hmt, hmem],
          ih _ _ hfr]
        simp only [firstDupAux, hmem, if_false]
        cases firstDupAux ((rank, i) :: seen) (attrPairs n2i rank rest) with
        | some p => rfl
        | none => simp [List.reverse_cons, List.append_assoc]

theorem rowsLoop_eq (cvid : Int) (n2i : String → Option Int)
    (rows : List MatrixRow) (seen : List (Int × Int))
    (tall : List ConfigPrecedenceRule)
    (hr : ∀ row ∈ rows, 0 < row.rank)
    (hf : ∀ row ∈ rows, ∀ a ∈ row.attrs, ∀ i, n2i a.1 = some i → a.2 ≤ 1) :
    rowsLoop cvid n2i rows seen tall =
      match firstDupAux seen (resolvedPairs rows n2i) with
      | some p => .error (.duplicateKey p.1 p.2)
      | none => .ok ((resolvedPairs rows n2i).reverse ++ seen,
          tall ++ tallRules rows cvid n2i) := by
  induction rows generalizing seen tall with
  | nil => simp [rowsLoop, resolvedPairs, tallRules, firstDupAux]
  | cons row rest ih =>
    have hrow : ¬ row.rank ≤ 0 := not_le.2 (hr row (List.mem_cons_self _ _))
    have hfrow : ∀ a ∈ row.attrs, ∀ i, n2i a.1 = some i → a.2 ≤ 1 :=
      hf row (List.mem_cons_self _ _)
    simp only [rowsLoop, hrow, if_false,
      rowStep_eq cvid n2i row.rank row.attrs seen tall hfrow]
    have hpc : resolvedPairs (row :: rest) n2i =
        attrPairs n2i row.rank row.attrs ++ resolvedPairs rest n2i := by
      simp [resolvedPairs]
    have htc : tallRules (row :: rest) cvid n2i =
        attrRules cvid n2i row.rank row.attrs ++ tallRules rest cvid n2i := by
      simp [tallRules]
    rw [hpc, htc, firstDupAux_append]
    cases hfd : firstDupAux seen (attrPairs n2i row.rank row.attrs) with
    | some p => simp
    | none =>
      simp only []
      rw [ih ((attrPairs n2i row.rank row.attrs).reverse ++ seen)
        (tall ++ attrRules cvid n2i row.rank row.attrs)
        (fun r hrr => hr r (List.mem_cons_of_mem _ hrr))
        (fun r hrr => hf r (List.mem_cons_of_mem _ hrr))]
      cases firstDupAux ((attrPairs n2i row.rank row.attrs).reverse ++ seen)
          (resolvedPairs rest n2i) with
      | some q => rfl
      | none => simp [List.reverse_append, List.append_assoc]

theorem matrix_json_to_tall_eq (rows : List MatrixRow) (cvid : Int)
    (n2i : String → Option Int)
    (hr : ∀ row ∈ rows, 0 < row.rank)
    (hf : ∀ row ∈ rows, ∀ a ∈ row.attrs, ∀ i, n2i a.1 = some i → a.2 ≤ 1) :
    matrix_json_to_tall rows cvid n2i =
      match firstDup (resolvedPairs rows n2i) with
      | some p => .error (.duplicateKey p.1 p.2)
      | none =>
        if (tallRules rows cvid n2i).isEmpty then .error .emptyResult
        else .ok (tallRules rows cvid n2i) := by
  unfold matrix_json_to_tall firstDup
  rw [rowsLoop_eq cvid n2i rows [] [] hr hf]
  cases firstDupAux [] (resolvedPairs rows n2i) with
  | some p => rfl
  | none => simp

/- ---------------------------------------------------------------- -/
/- Success-state inversion for matrix_json_to_tall                   -/
/- ---------------------------------------------------------------- -/

theorem rowStep_ok_inv (cvid : Int) (n2i : String → Option Int) (rank : Int) :
    ∀ (attrs : List (String × Nat)) (seen seen2 : List (Int × Int))
      (tall tall2 : List ConfigPrecedenceRule),
    rowStep cvid n2i rank attrs seen tall = .ok (seen2, tall2) →
    ∃ d : List ConfigPrecedenceRule, tall2 = tall ++ d ∧
      (∀ r ∈ d, r.config_version_id = cvid ∧ r.rank = rank ∧ r.match_type ≤ 1 ∧
        ∃ n, n2i n = some r.attr_id) ∧
      (d.map fun r => (r.rank, r.attr_id)).Nodup ∧
      (∀ p ∈ d.map fun r => (r.rank, r.attr_id), p ∉ seen) ∧
      (∀ p, p ∈ seen2 ↔ p ∈ d.map (fun r => (r.rank, r.attr_id)) ∨ p ∈ seen) := by
  intro attrs
  induction attrs with
  | nil =>
    intro seen seen2 tall tall2 h
    simp only [rowStep, Except.ok.injEq, Prod.mk.injEq] at h
    refine ⟨[], by simp [h.2.symm], by simp, by simp, by simp, ?_⟩
    intro p
    simp [h.1]
  | cons a rest ih =>
    obtain ⟨name, mt⟩ := a
    intro seen seen2 tall tall2 h
    cases hni : n2i name with
    | none =>
      rw [show rowStep cvid n2i rank ((name, mt) :: rest) seen tall =
            rowStep cvid n2i rank rest seen tall by simp [rowStep, hni]] at h
      exact ih seen seen2 tall tall2 h
    | some i =>
      by_cases hmt : 1 < mt
      · rw [show rowStep cvid n2i rank ((name, mt) :: rest) seen tall =
              .error (.invalidMatchType mt name) by simp [rowStep, hni, hmt]] at h
        exact Except.noConfusion h
      · by_cases hmem : (rank, i) ∈ seen
        · rw [show rowStep cvid n2i rank ((name, mt) :: rest) seen tall =
                .error (.duplicateKey rank i) by simp [rowStep, hni, hmt, hmem]] at h
          exact Except.noConfusion h
        · rw [show rowStep cvid n2i rank ((name, mt) :: rest) seen tall =
                rowStep cvid n2i rank rest ((rank, i) :: seen)
                  (tall ++ [⟨cvid, rank, i, mt⟩]) by
              simp [rowStep, hni, hmt, hmem]] at h
          obtain ⟨d, hd1, hd2, hd3, hd4, hd5⟩ :=
            ih ((rank, i) :: seen) seen2 (tall ++ [⟨cvid, rank, i, mt⟩]) tall2 h
          refine ⟨⟨cvid, rank, i, mt⟩ :: d, ?_, ?_, ?_, ?_, ?_⟩
          · rw [hd1]; simp
          · intro r hrr
            rcases List.mem_cons.1 hrr with rfl | hrd
            · exact ⟨rfl, rfl, not_lt.1 hmt, name, hni⟩
            · exact hd2 r hrd
          · simp only [List.map_cons, List.nodup_cons]
            refine ⟨?_, hd3⟩
            intro hin
            exact (hd4 (rank, i) hin) (List.mem_cons_self _ _)
          · intro p hp
            rcases List.mem_cons.1 hp with rfl | hpd
            · exact hmem
            · intro hpseen
              exact (hd4 p hpd) (List.mem_cons_of_mem _ hpseen)
          · intro p
            rw [hd5 p]
            simp only [List.map_cons, List.mem_cons]
            tauto

theorem rowsLoop_ok_inv (cvid : Int) (n2i : String → Option Int) :
    ∀ (rows : List MatrixRow) (seen seen2 : List (Int × Int))
      (tall tall2 : List ConfigPrecedenceRule),
    rowsLoop cvid n2i rows seen tall = .ok (seen2, tall2) →
    ∃ d : List ConfigPrecedenceRule, tall2 = tall ++ d ∧
      (∀ r ∈ d, r.config_version_id = cvid ∧ 0 < r.rank ∧ r.match_type ≤ 1 ∧
        ∃ n, n2i n = some r.attr_id) ∧
      (d.map fun r => (r.rank, r.attr_id)).Nodup ∧
      (∀ p ∈ d.map fun r => (r.rank, r.attr_id), p ∉ seen) := by
  intro rows
  induction rows with
  | nil =>
    intro seen seen2 tall tall2 h
    simp only [rowsLoop, Except.ok.injEq, Prod.mk.injEq] at h
    exact ⟨[], by simp [h.2.symm], by simp, by simp, by simp⟩
  | cons row rest ih =>
    intro seen seen2 tall tall2 h
    by_cases hrk : row.rank ≤ 0
    · rw [show rowsLoop cvid n2i (row :: rest) seen tall =
            .error (.invalidRank row.rank) by simp [rowsLoop, hrk]] at h
      exact Except.noConfusion h
    · simp only [rowsLoop, hrk, if_false] at h
      cases hst : rowStep cvid n2i row.rank row.attrs seen tall with
      | error e => rw [hst] at h; exact Except.noConfusion h
      | ok st =>
        rw [hst] at h
        obtain ⟨seen1, tall1⟩ := st
        obtain ⟨d1, hd1, hp1, hn1, hf1, hs1⟩ :=
          rowStep_ok_inv cvid n2i row.rank row.attrs seen seen1 tall tall1 hst
        obtain ⟨d2, hd2, hp2, hn2, hf2⟩ := ih seen1 seen2 tall1 tall2 h
        refine ⟨d1 ++ d2, ?_, ?_, ?_, ?_⟩
        · rw [hd2, hd1, List.append_assoc]
        · intro r hrr
          rcases List.mem_append.1 hrr with hrd | hrd
          · obtain ⟨hc, hrk', hm, hn⟩ := hp1 r hrd
            exact ⟨hc, hrk' ▸ lt_of_not_le hrk, hm, hn⟩
          · exact hp2 r hrd
        · rw [List.map_append, List.nodup_append]
          refine ⟨hn1, hn2, ?_⟩
          intro p hpd1 hpd2
          exact (hf2 p hpd2) ((hs1 p).2 (Or.inl hpd1))
        · intro p hp
          rw [List.map_append] at hp
          rcases List.mem_append.1 hp with hpd | hpd
          · exact hf1 p hpd
          · intro hpseen
            exact (hf2 p hpd) ((hs1 p).2 (Or.inr hpseen))

/- ---------------------------------------------------------------- -/
/- Loop characterization for tall_to_matrix_rows                     -/
/- ---------------------------------------------------------------- -/

theorem namePairs_cons_none (i2n : Int → Option String)
    (r : ConfigPrecedenceRule) (rest : List ConfigPrecedenceRule)
    (h : i2n r.attr_id = none) :
    namePairs (r :: rest) i2n = namePairs rest i2n := by
  simp [namePairs, List.filterMap_cons, h]

theorem namePairs_cons_some (i2n : Int → Option String)
    (r : ConfigPrecedenceRule) (rest : List ConfigPrecedenceRule)
    (n : String) (h : i2n r.attr_id = some n) :
    namePairs (r :: rest) i2n = (r.rank, n) :: namePairs rest i2n := by
  simp [namePairs, List.filterMap_cons, h]

theorem ruleEntries_cons_none (i2n : Int → Option String)
    (r : ConfigPrecedenceRule) (rest : List ConfigPrecedenceRule)
    (h : i2n r.attr_id = none) :
    ruleEntries (r :: rest) i2n = ruleEntries rest i2n := by
  simp [ruleEntries, List.filterMap_cons, h]

theorem ruleEntries_cons_some (i2n : Int → Option String)
    (r : ConfigPrecedenceRule) (rest : List ConfigPrecedenceRule)
    (n : String) (h : i2n r.attr_id = some n) :
    ruleEntries (r :: rest) i2n =
      (r.rank, n, r.match_type) :: ruleEntries rest i2n := by
  simp [ruleEntries, List.filterMap_cons, h]

theorem tallLoop_eq (i2n : Int → Option String)
    (tall : List ConfigPrecedenceRule) (seen : List (Int × String))
    (m : List (Int × List (String × Nat)))
    (hr : ∀ r ∈ tall, 0 < r.rank) (hm : ∀ r ∈ tall, r.match_type ≤ 1) :
    tallLoop i2n tall seen m =
      match firstDupAux seen (namePairs tall i2n) with
      | some p => .error (.duplicateKeyName p.1 p.2)
      | none => .ok ((namePairs tall i2n).reverse ++ seen,
          (ruleEntries tall i2n).foldl insertEntry m) := by
  induction tall generalizing seen m with
  | nil => simp [tallLoop, namePairs, ruleEntries, firstDupAux]
  | cons r rest ih =>
    have hrk : ¬ r.rank ≤ 0 := not_le.2 (hr r (List.mem_cons_self _ _))
    have hmt : ¬ 1 < r.match_type := not_lt.2 (hm r (List.mem_cons_self _ _))
    have hrr : ∀ q ∈ rest, 0 < q.rank := fun q hq => hr q (List.mem_cons_of_mem _ hq)
    have hmr : ∀ q ∈ rest, q.match_type ≤ 1 :=
      fun q hq => hm q (List.mem_cons_of_mem _ hq)
    cases hni : i2n r.attr_id with
    | none =>
      rw [show tallLoop i2n (r :: rest) seen m = tallLoop i2n rest seen m by
            simp [tallLoop, hrk, hmt, hni],
        namePairs_cons_none i2n r rest hni, ruleEntries_cons_none i2n r rest hni]
      exact ih seen m hrr hmr
    | some n =>
      by_cases hmem : (r.rank, n) ∈ seen
      · rw [show tallLoop i2n (r :: rest) seen m =
              .error (.duplicateKeyName r.rank n) by
            simp [tallLoop, hrk, hmt, hni, hmem],
          namePairs_cons_some i2n r rest n hni]
        simp [firstDupAux, hmem]
      · rw [show tallLoop i2n (r :: rest) seen m =
              tallLoop i2n rest ((r.rank, n) :: seen)
                (insertByRank r.rank n r.match_type m) by
            simp [tallLoop, hrk, hmt, hni, hmem],
          ih _ _ hrr hmr,
          namePairs_cons_some i2n r rest n hni,
          ruleEntries_cons_some i2n r rest n hni]
        simp only [firstDupAux, hmem, if_false]
        cases firstDupAux ((r.rank, n) :: seen) (namePairs rest i2n) with
        | some p => rfl
        | none =>
          simp [List.reverse_cons, List.append_assoc, List.foldl_cons, insertEntry]

theorem tallLoop_ok_inv (i2n : Int → Option String) :
    ∀ (tall : List ConfigPrecedenceRule) (seen : List (Int × String))
      (m : List (Int × List (String × Nat)))
      (st : List (Int × String) × List (Int × List (String × Nat))),
    tallLoop i2n tall seen m = .ok st →
    (namePairs tall i2n).Nodup ∧ ∀ p ∈ namePairs tall i2n, p ∉ seen := by
  intro tall
  induction tall with
  | nil =>
    intro seen m st _
    simp [namePairs]
  | cons r rest ih =>
    intro seen m st h
    by_cases hrk : r.rank ≤ 0
    · rw [show tallLoop i2n (r :: rest) seen m = .error (.invalidRank r.rank) by
            simp [tallLoop, hrk]] at h
      exact Except.noConfusion h
    · by_cases hmt : 1 < r.match_type
      · rw [show tallLoop i2n (r :: rest) seen m =
              .error (.invalidMatchTypeId r.match_type r.attr_id) by
            simp [tallLoop, hrk, hmt]] at h
        exact Except.noConfusion h
      · cases hni : i2n r.attr_id with
        | none =>
          rw [show tallLoop i2n (r :: rest) seen m = tallLoop i2n rest seen m by
                simp [tallLoop, hrk, hmt, hni]] at h
          rw [namePairs_cons_none i2n r rest hni]
          exact ih seen m st h
        | some n =>
          by_cases hmem : (r.rank, n) ∈ seen
          · rw [show tallLoop i2n (r :: rest) seen m =
                  .error (.duplicateKeyName r.rank n) by
                simp [tallLoop, hrk, hmt, hni, hmem]] at h
            exact Except.noConfusion h
          · rw [show tallLoop i2n (r :: rest) seen m =
                  tallLoop i2n rest ((r.rank, n) :: seen)
                    (insertByRank r.rank n r.match_type m) by
                simp [tallLoop, hrk, hmt, hni, hmem]] at h
            obtain ⟨hnd, hfr⟩ := ih _ _ st h
            rw [namePairs_cons_some i2n r rest n hni]
            refine ⟨List.nodup_cons.2 ⟨?_, hnd⟩, ?_⟩
            · intro hin
              exact (hfr _ hin) (List.mem_cons_self _ _)
            · intro p hp
              rcases List.mem_cons.1 hp with rfl | hp'
              · exact hmem
              · intro hpseen
                exact (hfr p hp') (List.mem_cons_of_mem _ hpseen)

/- ---------------------------------------------------------------- -/
/- Prefix decomposition of the loops                                 -/
/- ---------------------------------------------------------------- -/

theorem rowStep_append (cvid : Int) (n2i : String → Option Int) (rank : Int)
    (a₁ a₂ : List (String × Nat)) (seen : List (Int × Int))
    (tall : List ConfigPrecedenceRule) :
    rowStep cvid n2i rank (a₁ ++ a₂) seen tall =
      match rowStep cvid n2i rank a₁ seen tall with
      | .error e => .error e
      | .ok st => rowStep cvid n2i rank a₂ st.1 st.2 := by
  induction a₁ generalizing seen tall with
  | nil => simp [rowStep]
  | cons a rest ih =>
    obtain ⟨name, mt⟩ := a
    cases hni : n2i name with
    | none => simpa [rowStep, hni] using ih seen tall
    | some i =>
      by_cases hmt : 1 < mt
      · simp [rowStep, hni, hmt]
      · by_cases hmem : (rank, i) ∈ seen
        · simp [rowStep, hni, hmt, hmem]
        · simpa [rowStep, hni, hmt, hmem] using
            ih ((rank, i) :: seen) (tall ++ [⟨cvid, rank, i, mt⟩])

theorem rowsLoop_append (cvid : Int) (n2i : String → Option Int)
    (l₁ l₂ : List MatrixRow) (seen : List (Int × Int))
    (tall : List ConfigPrecedenceRule) :
    rowsLoop cvid n2i (l₁ ++ l₂) seen tall =
      match rowsLoop cvid n2i l₁ seen tall with
      | .error e => .error e
      | .ok st => rowsLoop cvid n2i l₂ st.1 st.2 := by
  induction l₁ generalizing seen tall with
  | nil => simp [rowsLoop]
  | cons row rest ih =>
    by_cases hrk : row.rank ≤ 0
    · simp [rowsLoop, hrk]
    · simp only [List.cons_append, rowsLoop, hrk, if_false]
      cases rowStep cvid n2i row.rank row.attrs seen tall with
      | error e => rfl
      | ok st => exact ih st.1 st.2

theorem tallLoop_append (i2n : Int → Option String)
    (l₁ l₂ : List ConfigPrecedenceRule) (seen : List (Int × String))
    (m : List (Int × List (String × Nat))) :
    tallLoop i2n (l₁ ++ l₂) seen m =
      match tallLoop i2n l₁ seen m with
      | .error e => .error e
      | .ok st => tallLoop i2n l₂ st.1 st.2 := by
  induction l₁ generalizing seen m with
  | nil => simp [tallLoop]
  | cons r rest ih =>
    by_cases hrk : r.rank ≤ 0
    · simp [tallLoop, hrk]
    · by_cases hmt : 1 < r.match_type
      · simp [tallLoop, hrk, hmt]
      · cases hni : i2n r.attr_id with
        | none => simpa [tallLoop, hrk, hmt, hni] using ih seen m
        | some n =>
          by_cases hmem : (r.rank, n) ∈ seen
          · simp [tallLoop, hrk, hmt, hni, hmem]
          · simpa [tallLoop, hrk, hmt, hni, hmem] using
              ih ((r.rank, n) :: seen) (insertByRank r.rank n r.match_type m)

/- ---------------------------------------------------------------- -/
/- More order facts, insertion permutation facts                     -/
/- ---------------------------------------------------------------- -/

theorem charListLtB_trans :
    ∀ x y z : List Char, charListLtB x y = true → charListLtB y z = true →
      charListLtB x z = true := by
  intro x
  induction x with
  | nil =>
    intro y z h₁ h₂
    cases z with
    | nil =>
      cases y with
      | nil => simp [charListLtB] at h₁
      | cons b bs => simp [charListLtB] at h₂
    | cons c cs => simp [charListLtB]
  | cons a as ih =>
    intro y z h₁ h₂
    cases y with
    | nil => simp [charListLtB] at h₁
    | cons b bs =>
      cases z with
      | nil => simp [charListLtB] at h₂
      | cons c cs =>
        simp only [charListLtB] at h₁ h₂ ⊢
        by_cases hab : a < b
        · by_cases hbc : b < c
          · simp [lt_trans hab hbc]
          · by_cases hcb : c < b
            · simp [hbc, hcb] at h₂
            · have : b = c := le_antisymm (not_lt.1 hcb) (not_lt.1 hbc)
              simp [this ▸ hab]
        · by_cases hba : b < a
          · simp [hab, hba] at h₁
          · have hab' : a = b := le_antisymm (not_lt.1 hba) (not_lt.1 hab)
            simp only [hab, hba, if_false] at h₁
            by_cases hbc : b < c
            · simp [hab' ▸ hbc]
            · by_cases hcb : c < b
              · simp [hbc, hcb] at h₂
              · have hbc' : b = c := le_antisymm (not_lt.1 hcb) (not_lt.1 hbc)
                simp only [hbc, hcb, if_false] at h₂
                have hac : ¬ a < c := by rw [hab', hbc']; exact lt_irrefl c
                have hca : ¬ c < a := by rw [hab', hbc']; exact lt_irrefl c
                simp [hac, hca, ih bs cs h₁ h₂]

theorem strLtB_trans (a b c : String) (h₁ : strLtB a b = true)
    (h₂ : strLtB b c = true) : strLtB a c = true :=
  charListLtB_trans _ _ _ h₁ h₂

theorem flattenGroups_cons (r : Int) (attrs : List (String × Nat))
    (rest : List (Int × List (String × Nat))) :
    flattenGroups ((r, attrs) :: rest) =
      (attrs.map fun a => (r, a.1, a.2)) ++ flattenGroups rest := by
  simp [flattenGroups]

theorem insertInner_perm (name : String) (mt : Nat)
    (attrs : List (String × Nat)) (h : name ∉ attrs.map Prod.fst) :
    (insertInner name mt attrs).Perm ((name, mt) :: attrs) := by
  induction attrs with
  | nil => simp [insertInner]
  | cons a rest ih =>
    obtain ⟨n, m⟩ := a
    simp only [List.map_cons, List.mem_cons] at h
    push_neg at h
    obtain ⟨hne, hrest⟩ := h
    by_cases hlt : strLtB name n
    · simp [insertInner, hlt]
    · have hne' : ¬ name = n := hne
      simp only [insertInner, hlt, hne', if_false]
      exact ((ih hrest).cons (n, m)).trans (List.Perm.swap (name, mt) (n, m) rest)

theorem insertByRank_flatten_perm (rank : Int) (name : String) (mt : Nat) :
    ∀ m : List (Int × List (String × Nat)),
    (rank, name) ∉ (flattenGroups m).map (fun e => (e.1, e.2.1)) →
    (flattenGroups (insertByRank rank name mt m)).Perm
      ((rank, name, mt) :: flattenGroups m) := by
  intro m
  induction m with
  | nil => intro _; simp [insertByRank, flattenGroups]
  | cons g rest ih =>
    obtain ⟨r, attrs⟩ := g
    intro h
    rw [flattenGroups_cons, List.map_append] at h
    have h1 : (rank, name) ∉ (attrs.map fun a => (r, a.1, a.2)).map
        (fun e => (e.1, e.2.1)) := fun hx => h (List.mem_append.2 (Or.inl hx))
    have h2 : (rank, name) ∉ (flattenGroups rest).map (fun e => (e.1, e.2.1)) :=
      fun hx => h (List.mem_append.2 (Or.inr hx))
    by_cases hlt : rank < r
    · simp [insertByRank, hlt, flattenGroups_cons]
    · by_cases heq : rank = r
      · subst heq
        rw [show insertByRank rank name mt ((rank, attrs) :: rest) =
              (rank, insertInner name mt attrs) :: rest by
            simp [insertByRank, hlt]]
        rw [flattenGroups_cons, flattenGroups_cons]
        have hname : name ∉ attrs.map Prod.fst := by
          intro hmem
          apply h1
          rw [List.map_map]
          rcases List.mem_map.1 hmem with ⟨a, ha, hfst⟩
          exact List.mem_map.2 ⟨a, ha, by simp [hfst]⟩
        have hp := ((insertInner_perm name mt attrs hname).map
          (fun a => (rank, a.1, a.2))).append_right (flattenGroups rest)
        simpa using hp
      · rw [show insertByRank rank name mt ((r, attrs) :: rest) =
              (r, attrs) :: insertByRank rank name mt rest by
            simp [insertByRank, hlt, heq]]
        rw [flattenGroups_cons, flattenGroups_cons]
        refine (List.Perm.append_left _ (ih h2)).trans ?_
        exact List.perm_middle

theorem foldl_insert_flatten_perm :
    ∀ (entries : List (Int × String × Nat))
      (m : List (Int × List (String × Nat))),
    (entries.map fun e => (e.1, e.2.1)).Nodup →
    (∀ k ∈ entries.map fun e => (e.1, e.2.1),
      k ∉ (flattenGroups m).map fun e => (e.1, e.2.1)) →
    (flattenGroups (entries.foldl insertEntry m)).Perm
      (entries ++ flattenGroups m) := by
  intro entries
  induction entries with
  | nil => intro m _ _; simp
  | cons e rest ih =>
    intro m hnd hfresh
    simp only [List.map_cons, List.nodup_cons] at hnd
    have hkey : (e.1, e.2.1) ∉ (flattenGroups m).map fun x => (x.1, x.2.1) :=
      hfresh _ (by simp)
    have hins : (flattenGroups (insertEntry m e)).Perm (e :: flattenGroups m) := by
      have := insertByRank_flatten_perm e.1 e.2.1 e.2.2 m hkey
      simpa [insertEntry] using this
    have hkeysets : ((flattenGroups (insertEntry m e)).map fun x => (x.1, x.2.1)).Perm
        ((e.1, e.2.1) :: (flattenGroups m).map fun x => (x.1, x.2.1)) := by
      simpa using hins.map (fun x => (x.1, x.2.1))
    have hfresh' : ∀ k ∈ rest.map fun x => (x.1, x.2.1),
        k ∉ (flattenGroups (insertEntry m e)).map fun x => (x.1, x.2.1) := by
      intro k hk hkin
      rcases List.mem_cons.1 ((hkeysets.mem_iff).1 hkin) with hke | hkm
      · exact hnd.1 (hke ▸ hk)
      · exact (hfresh k (List.mem_cons_of_mem _ hk)) hkm
    rw [show (e :: rest).foldl insertEntry m =
          rest.foldl insertEntry (insertEntry m e) by simp [List.foldl_cons]]
    refine (ih _ hnd.2 hfresh').trans ?_
    refine (List.Perm.append_left _ hins).trans ?_
    exact List.perm_middle

/- ---------------------------------------------------------------- -/
/- Insertion commutes on distinct keys                               -/
/- ---------------------------------------------------------------- -/

theorem strLtB_gt_of (a b : String) (h₁ : strLtB a b = false) (h₂ : a ≠ b) :
    strLtB b a = true := by
  cases hc : strLtB b a with
  | true => rfl
  | false => exact absurd (strLtB_eq_of_not a b h₁ hc) h₂

theorem insertInner_comm (n₁ n₂ : String) (f₁ f₂ : Nat) (h : n₁ ≠ n₂) :
    ∀ attrs : List (String × Nat),
    insertInner n₁ f₁ (insertInner n₂ f₂ attrs) =
      insertInner n₂ f₂ (insertInner n₁ f₁ attrs) := by
  have h' : n₂ ≠ n₁ := Ne.symm h
  intro attrs
  induction attrs with
  | nil =>
    cases hc : strLtB n₁ n₂ with
    | true =>
      have hc' := strLtB_asymm _ _ hc
      simp [insertInner, hc, hc', h']
    | false =>
      have hc' : strLtB n₂ n₁ = true := strLtB_gt_of _ _ hc h
      simp [insertInner, hc, hc', h]
  | cons a rest ih =>
    obtain ⟨n, m⟩ := a
    cases hb2 : strLtB n₂ n with
    | true =>
      cases hc : strLtB n₁ n₂ with
      | true =>
        have hb1 : strLtB n₁ n = true := strLtB_trans _ _ _ hc hb2
        have hc' := strLtB_asymm _ _ hc
        simp [insertInner, hb2, hc, hb1, hc', h']
      | false =>
        have hc' : strLtB n₂ n₁ = true := strLtB_gt_of _ _ hc h
        cases hb1 : strLtB n₁ n with
        | true => simp [insertInner, hb2, hc, hc', hb1, h]
        | false =>
          by_cases he1 : n₁ = n
          · subst he1
            simp [insertInner, hc, hc', strLtB_irrefl, h]
          · simp [insertInner, hb2, hc, hb1, he1, h]
    | false =>
      by_cases he2 : n₂ = n
      · subst he2
        cases hc : strLtB n₁ n₂ with
        | true =>
          have hc' := strLtB_asymm _ _ hc
          simp [insertInner, strLtB_irrefl, hc, hc', h']
        | false =>
          simp [insertInner, strLtB_irrefl, hc, h]
      · cases hb1 : strLtB n₁ n with
        | true =>
          have hc' : strLtB n₂ n₁ = false := by
            cases hcc : strLtB n₂ n₁ with
            | false => rfl
            | true =>
              have := strLtB_trans _ _ _ hcc hb1
              rw [hb2] at this
              exact Bool.noConfusion this
          simp [insertInner, hb2, he2, hb1, hc', h']
        | false =>
          by_cases he1 : n₁ = n
          · subst he1
            simp [insertInner, strLtB_irrefl, hb2, he2]
          · simp [insertInner, hb2, he2, hb1, he1, ih]

theorem insertByRank_comm_lt (r₁ r₂ : Int) (n₁ n₂ : String) (f₁ f₂ : Nat)
    (hlt : r₁ < r₂) :
    ∀ m : List (Int × List (String × Nat)),
    insertByRank r₁ n₁ f₁ (insertByRank r₂ n₂ f₂ m) =
      insertByRank r₂ n₂ f₂ (insertByRank r₁ n₁ f₁ m) := by
  have h21 : ¬ r₂ < r₁ := by omega
  have hne : r₂ ≠ r₁ := by omega
  intro m
  induction m with
  | nil => simp [insertByRank, hlt, h21, hne]
  | cons g rest ih =>
    obtain ⟨r, attrs⟩ := g
    by_cases hb2 : r₂ < r
    · have hb1 : r₁ < r := by omega
      simp [insertByRank, hb2, hb1, hlt, h21, hne]
    · by_cases he2 : r₂ = r
      · subst he2
        have h1 : ¬ r₂ < r₁ := by omega
        have h2 : r₂ ≠ r₁ := by omega
        simp [insertByRank, lt_irrefl, hlt, h1, h2]
      · by_cases hb1 : r₁ < r
        · simp [insertByRank, hb2, he2, hb1, h21, hne]
        · by_cases he1 : r₁ = r
          · have hb2' : ¬ r₂ < r := hb2
            simp [insertByRank, hb2, he2, hb1, he1, h21, hne]
          · simp [insertByRank, hb2, he2, hb1, he1, ih]

theorem insertByRank_comm_eq (ρ : Int) (n₁ n₂ : String) (f₁ f₂ : Nat)
    (hne : n₁ ≠ n₂) :
    ∀ m : List (Int × List (String × Nat)),
    insertByRank ρ n₁ f₁ (insertByRank ρ n₂ f₂ m) =
      insertByRank ρ n₂ f₂ (insertByRank ρ n₁ f₁ m) := by
  have hcomm1 : insertInner n₁ f₁ [(n₂, f₂)] = insertInner n₂ f₂ [(n₁, f₁)] := by
    simpa [insertInner] using insertInner_comm n₁ n₂ f₁ f₂ hne []
  intro m
  induction m with
  | nil => simp [insertByRank, lt_irrefl, hcomm1]
  | cons g rest ih =>
    obtain ⟨r, attrs⟩ := g
    by_cases hb : ρ < r
    · simp [insertByRank, hb, lt_irrefl, hcomm1]
    · by_cases he : ρ = r
      · subst he
        simp [insertByRank, hb, lt_irrefl,
          insertInner_comm n₁ n₂ f₁ f₂ hne attrs]
      · simp [insertByRank, hb, he, ih]

theorem insertByRank_comm (r₁ r₂ : Int) (n₁ n₂ : String) (f₁ f₂ : Nat)
    (h : (r₁, n₁) ≠ (r₂, n₂)) (m : List (Int × List (String × Nat))) :
    insertByRank r₁ n₁ f₁ (insertByRank r₂ n₂ f₂ m) =
      insertByRank r₂ n₂ f₂ (insertByRank r₁ n₁ f₁ m) := by
  rcases lt_trichotomy r₁ r₂ with hlt | heq | hgt
  · exact insertByRank_comm_lt r₁ r₂ n₁ n₂ f₁ f₂ hlt m
  · subst heq
    have hne : n₁ ≠ n₂ := by
      intro hn
      exact h (by rw [hn])
    exact insertByRank_comm_eq r₁ n₁ n₂ f₁ f₂ hne m
  · exact (insertByRank_comm_lt r₂ r₁ n₂ n₁ f₂ f₁ hgt m).symm

/- ---------------------------------------------------------------- -/
/- Folding the insertions                                            -/
/- ---------------------------------------------------------------- -/

theorem foldl_insert_perm (entries₁ entries₂ : List (Int × String × Nat))
    (hperm : entries₁.Perm entries₂)
    (hnd : (entries₁.map fun e => (e.1, e.2.1)).Nodup)
    (m : List (Int × List (String × Nat))) :
    entries₁.foldl insertEntry m = entries₂.foldl insertEntry m := by
  refine hperm.foldl_eq' ?_ m
  intro x hx y hy z
  by_cases hxy : x = y
  · rw [hxy]
  · have hkey : (y.1, y.2.1) ≠ (x.1, x.2.1) := by
      intro hk
      exact hxy (List.inj_on_of_nodup_map hnd hx hy hk.symm)
    simpa [insertEntry] using
      insertByRank_comm y.1 x.1 y.2.1 x.2.1 y.2.2 x.2.2 hkey z

theorem insertByRank_ne_nil (rank : Int) (name : String) (mt : Nat) :
    ∀ m : List (Int × List (String × Nat)), insertByRank rank name mt m ≠ [] := by
  intro m
  cases m with
  | nil => simp [insertByRank]
  | cons g rest =>
    obtain ⟨r, attrs⟩ := g
    simp only [insertByRank]
    split_ifs <;> simp

theorem foldl_insert_ne_nil_of_ne :
    ∀ (entries : List (Int × String × Nat)) (m : List (Int × List (String × Nat))),
    m ≠ [] → entries.foldl insertEntry m ≠ [] := by
  intro entries
  induction entries with
  | nil => intro m h; simpa using h
  | cons e rest ih =>
    intro m _
    rw [List.foldl_cons]
    exact ih (insertEntry m e) (insertByRank_ne_nil e.1 e.2.1 e.2.2 m)

theorem foldl_insert_ne_nil (entries : List (Int × String × Nat))
    (h : entries ≠ []) : entries.foldl insertEntry [] ≠ [] := by
  cases entries with
  | nil => exact absurd rfl h
  | cons e rest =>
    rw [List.foldl_cons]
    exact foldl_insert_ne_nil_of_ne rest (insertEntry [] e)
      (insertByRank_ne_nil e.1 e.2.1 e.2.2 [])

/- ---------------------------------------------------------------- -/
/- Restoring names along an inverse mapping                          -/
/- ---------------------------------------------------------------- -/

theorem tallRules_eq_filterMap (rows : List MatrixRow) (cvid : Int)
    (n2i : String → Option Int) :
    tallRules rows cvid n2i = (matrixEntries rows).filterMap fun e =>
      (n2i e.2.1).map fun i => (⟨cvid, e.1, i, e.2.2⟩ : ConfigPrecedenceRule) := by
  induction rows with
  | nil => simp [tallRules, matrixEntries]
  | cons row rest ih =>
    simp only [tallRules, matrixEntries, List.flatMap_cons, List.filterMap_append]
      at ih ⊢
    rw [ih]
    congr 1
    simp [attrRules, rowEntries, List.filterMap_map]
    rfl

theorem resolvedPairs_eq_filterMap (rows : List MatrixRow)
    (n2i : String → Option Int) :
    resolvedPairs rows n2i = (matrixEntries rows).filterMap fun e =>
      (n2i e.2.1).map fun i => (e.1, i) := by
  induction rows with
  | nil => simp [resolvedPairs, matrixEntries]
  | cons row rest ih =>
    simp only [resolvedPairs, matrixEntries, List.flatMap_cons,
      List.filterMap_append] at ih ⊢
    rw [ih]
    congr 1
    simp [attrPairs, rowEntries, List.filterMap_map]
    rfl

theorem ruleEntries_restore (n2i : String → Option Int)
    (i2n : Int → Option String)
    (hinv : ∀ n i, n2i n = some i → i2n i = some n) (cvid : Int) :
    ∀ l : List (Int × String × Nat),
    (∀ e ∈ l, (n2i e.2.1).isSome = true) →
    ruleEntries (l.filterMap fun e => (n2i e.2.1).map fun i =>
      (⟨cvid, e.1, i, e.2.2⟩ : ConfigPrecedenceRule)) i2n = l := by
  intro l
  induction l with
  | nil => intro _; simp [ruleEntries]
  | cons e rest ih =>
    intro h
    obtain ⟨i, hi⟩ := Option.isSome_iff_exists.1 (h e (List.mem_cons_self _ _))
    have hname : i2n i = some e.2.1 := hinv e.2.1 i hi
    simp only [List.filterMap_cons, hi, Option.map_some']
    rw [ruleEntries_cons_some i2n _ _ e.2.1 hname,
      ih (fun x hx => h x (List.mem_cons_of_mem _ hx))]

theorem namePairs_eq_map_ruleEntries (tall : List ConfigPrecedenceRule)
    (i2n : Int → Option String) :
    namePairs tall i2n = (ruleEntries tall i2n).map fun e => (e.1, e.2.1) := by
  induction tall with
  | nil => simp [namePairs, ruleEntries]
  | cons r rest ih =>
    cases hni : i2n r.attr_id with
    | none =>
      rw [namePairs_cons_none i2n r rest hni, ruleEntries_cons_none i2n r rest hni,
        ih]
    | some n =>
      rw [namePairs_cons_some i2n r rest n hni,
        ruleEntries_cons_some i2n r rest n hni, ih]
      simp

theorem filterMap_eq_map_of_forall {α β : Type} (f : α → Option β) (g : α → β) :
    ∀ l : List α, (∀ x ∈ l, f x = some (g x)) → l.filterMap f = l.map g := by
  intro l
  induction l with
  | nil => intro _; simp
  | cons x rest ih =>
    intro h
    rw [List.filterMap_cons, h x (List.mem_cons_self _ _), List.map_cons,
      ih (fun y hy => h y (List.mem_cons_of_mem _ hy))]

theorem matrixEntries_map_groups (m : List (Int × List (String × Nat))) :
    matrixEntries (m.map fun g => (⟨g.1, g.2⟩ : MatrixRow)) = flattenGroups m := by
  induction m with
  | nil => simp [matrixEntries, flattenGroups]
  | cons g rest ih =>
    simp only [List.map_cons, matrixEntries, flattenGroups, List.flatMap_cons]
      at ih ⊢
    rw [ih]
    rfl

/- ---------------------------------------------------------------- -/
/- Success corollaries                                               -/
/- ---------------------------------------------------------------- -/

theorem mem_matrixEntries (rows : List MatrixRow) (row : MatrixRow)
    (a : String × Nat) (hrow : row ∈ rows) (ha : a ∈ row.attrs) :
    (row.rank, a.1, a.2) ∈ matrixEntries rows := by
  rw [matrixEntries, List.mem_flatMap]
  refine ⟨row, hrow, ?_⟩
  rw [rowEntries, List.mem_map]
  exact ⟨a, ha, rfl⟩

theorem matrixEntries_mem_inv (rows : List MatrixRow) (e : Int × String × Nat)
    (he : e ∈ matrixEntries rows) :
    ∃ row ∈ rows, e.1 = row.rank ∧ (e.2.1, e.2.2) ∈ row.attrs := by
  rw [matrixEntries, List.mem_flatMap] at he
  obtain ⟨row, hrow, hmem⟩ := he
  rw [rowEntries, List.mem_map] at hmem
  obtain ⟨a, ha, hae⟩ := hmem
  exact ⟨row, hrow, by rw [← hae], by rw [← hae]; exact ha⟩

theorem matrix_json_to_tall_ok (rows : List MatrixRow) (cvid : Int)
    (n2i : String → Option Int)
    (hr : ∀ row ∈ rows, 0 < row.rank)
    (hf : ∀ row ∈ rows, ∀ a ∈ row.attrs, ∀ i, n2i a.1 = some i → a.2 ≤ 1)
    (hnd : (resolvedPairs rows n2i).Nodup)
    (hne : tallRules rows cvid n2i ≠ []) :
    matrix_json_to_tall rows cvid n2i = .ok (tallRules rows cvid n2i) := by
  rw [matrix_json_to_tall_eq rows cvid n2i hr hf]
  have hfd : firstDup (resolvedPairs rows n2i) = none := by
    rw [firstDup, firstDupAux_eq_none_iff]
    exact ⟨hnd, by simp⟩
  rw [hfd]
  obtain ⟨x, xs, hx⟩ := List.exists_cons_of_ne_nil hne
  simp [hx]

theorem tall_to_matrix_rows_ok (tall : List ConfigPrecedenceRule)
    (i2n : Int → Option String)
    (hr : ∀ r ∈ tall, 0 < r.rank) (hm : ∀ r ∈ tall, r.match_type ≤ 1)
    (hnd : (namePairs tall i2n).Nodup)
    (hne : ruleEntries tall i2n ≠ []) :
    tall_to_matrix_rows tall i2n =
      .ok (((ruleEntries tall i2n).foldl insertEntry []).map fun g => ⟨g.1, g.2⟩) := by
  rw [tall_to_matrix_rows, tallLoop_eq i2n tall [] [] hr hm]
  have hfd : firstDupAux [] (namePairs tall i2n) = none := by
    rw [firstDupAux_eq_none_iff]
    exact ⟨hnd, by simp⟩
  rw [hfd]
  have hnn := foldl_insert_ne_nil (ruleEntries tall i2n) hne
  obtain ⟨x, xs, hx⟩ := List.exists_cons_of_ne_nil hnn
  simp [hx]

theorem entryKeys_nodup (rows : List MatrixRow) (n2i : String → Option Int)
    (i2n : Int → Option String)
    (hinv : ∀ n i, n2i n = some i ↔ i2n i = some n)
    (hres : ∀ e ∈ matrixEntries rows, (n2i e.2.1).isSome = true)
    (hnd : (resolvedPairs rows n2i).Nodup) :
    ((matrixEntries rows).map fun e => (e.1, e.2.1)).Nodup := by
  have hmap : resolvedPairs rows n2i = (matrixEntries rows).map
      (fun e => (e.1, (n2i e.2.1).getD 0)) := by
    rw [resolvedPairs_eq_filterMap]
    apply filterMap_eq_map_of_forall
    intro e he
    obtain ⟨i, hi⟩ := Option.isSome_iff_exists.1 (hres e he)
    simp [hi]
  rw [hmap] at hnd
  have hkeys : (matrixEntries rows).map (fun e => (e.1, e.2.1)) =
      ((matrixEntries rows).map (fun e => (e.1, (n2i e.2.1).getD 0))).map
        (fun p => (p.1, (i2n p.2).getD "")) := by
    rw [List.map_map]
    apply List.map_congr_left
    intro e he
    obtain ⟨i, hi⟩ := Option.isSome_iff_exists.1 (hres e he)
    have hni : i2n i = some e.2.1 := (hinv e.2.1 i).1 hi
    simp [Function.comp, hi, hni]
  rw [hkeys]
  refine List.Nodup.map_on ?_ hnd
  intro x hx y hy hfeq
  rcases List.mem_map.1 hx with ⟨ex, hex, hgex⟩
  rcases List.mem_map.1 hy with ⟨ey, hey, hgey⟩
  obtain ⟨ix, hix⟩ := Option.isSome_iff_exists.1 (hres ex hex)
  obtain ⟨iy, hiy⟩ := Option.isSome_iff_exists.1 (hres ey hey)
  have hx2 : x.2 = ix := by rw [← hgex]; simp [hix]
  have hy2 : y.2 = iy := by rw [← hgey]; simp [hiy]
  have hnx : i2n x.2 = some ex.2.1 := by rw [hx2]; exact (hinv ex.2.1 ix).1 hix
  have hny : i2n y.2 = some ey.2.1 := by rw [hy2]; exact (hinv ey.2.1 iy).1 hiy
  rw [Prod.mk.injEq] at hfeq
  obtain ⟨h1, h2⟩ := hfeq
  rw [hnx, hny] at h2
  simp only [Option.getD_some] at h2
  have hx2' : n2i ex.2.1 = some x.2 := by rw [hx2]; exact hix
  have hy2' : n2i ey.2.1 = some y.2 := by rw [hy2]; exact hiy
  rw [h2] at hx2'
  have : x.2 = y.2 := by
    have := hx2'.symm.trans hy2'
    exact Option.some.inj this
  exact Prod.ext h1 this

theorem tallRules_mem_inv (rows : List MatrixRow) (cvid : Int)
    (n2i : String → Option Int) (r : ConfigPrecedenceRule)
    (hr : r ∈ tallRules rows cvid n2i) :
    ∃ e ∈ matrixEntries rows, n2i e.2.1 = some r.attr_id ∧
      r.config_version_id = cvid ∧ r.rank = e.1 ∧ r.match_type = e.2.2 := by
  rw [tallRules_eq_filterMap] at hr
  rcases List.mem_filterMap.1 hr with ⟨e, he, hfe⟩
  cases hni : n2i e.2.1 with
  | none => rw [hni] at hfe; simp at hfe
  | some i =>
    rw [hni] at hfe
    simp only [Option.map_some', Option.some.injEq] at hfe
    exact ⟨e, he, by simp [hni, ← hfe], by rw [← hfe], by rw [← hfe], by rw [← hfe]⟩

theorem roundtrip_chain (rows : List MatrixRow) (cvid : Int)
    (n2i : String → Option Int) (i2n : Int → Option String)
    (hinv : ∀ n i, n2i n = some i ↔ i2n i = some n)
    (hres : ∀ e ∈ matrixEntries rows, (n2i e.2.1).isSome = true)
    (hnd : (resolvedPairs rows n2i).Nodup)
    (hrank : ∀ row ∈ rows, 0 < row.rank)
    (hflag : ∀ e ∈ matrixEntries rows, e.2.2 ≤ 1)
    (hne : matrixEntries rows ≠ []) :
    matrix_json_to_tall rows cvid n2i = .ok (tallRules rows cvid n2i) ∧
    tall_to_matrix_rows (tallRules rows cvid n2i) i2n =
      .ok (((matrixEntries rows).foldl insertEntry []).map fun g =>
        (⟨g.1, g.2⟩ : MatrixRow)) := by
  have hfwd : ∀ n i, n2i n = some i → i2n i = some n :=
    fun n i h => (hinv n i).1 h
  have hf : ∀ row ∈ rows, ∀ a ∈ row.attrs, ∀ i, n2i a.1 = some i → a.2 ≤ 1 := by
    intro row hrow a ha i _
    exact hflag (row.rank, a.1, a.2) (mem_matrixEntries rows row a hrow ha)
  have hRE : ruleEntries (tallRules rows cvid n2i) i2n = matrixEntries rows := by
    rw [tallRules_eq_filterMap]
    exact ruleEntries_restore n2i i2n hfwd cvid _ hres
  have hneT : tallRules rows cvid n2i ≠ [] := by
    rw [tallRules_eq_filterMap,
      filterMap_eq_map_of_forall _
        (fun e => (⟨cvid, e.1, (n2i e.2.1).getD 0, e.2.2⟩ : ConfigPrecedenceRule))
        (matrixEntries rows) ?_]
    · intro hz
      exact hne (List.map_eq_nil_iff.1 hz)
    · intro e he
      obtain ⟨i, hi⟩ := Option.isSome_iff_exists.1 (hres e he)
      simp [hi]
  refine ⟨matrix_json_to_tall_ok rows cvid n2i hrank hf hnd hneT, ?_⟩
  have hrT : ∀ r ∈ tallRules rows cvid n2i, 0 < r.rank := by
    intro r hr
    obtain ⟨e, he, _, _, hrk, _⟩ := tallRules_mem_inv rows cvid n2i r hr
    obtain ⟨row, hrow, herow, _⟩ := matrixEntries_mem_inv rows e he
    rw [hrk, herow]
    exact hrank row hrow
  have hmT : ∀ r ∈ tallRules rows cvid n2i, r.match_type ≤ 1 := by
    intro r hr
    obtain ⟨e, he, _, _, _, hmt⟩ := tallRules_mem_inv rows cvid n2i r hr
    rw [hmt]
    exact hflag e he
  have hndT : (namePairs (tallRules rows cvid n2i) i2n).Nodup := by
    rw [namePairs_eq_map_ruleEntries, hRE]
    exact entryKeys_nodup rows n2i i2n hinv hres hnd
  have hneE : ruleEntries (tallRules rows cvid n2i) i2n ≠ [] := by
    rw [hRE]; exact hne
  have h2 := tall_to_matrix_rows_ok (tallRules rows cvid n2i) i2n hrT hmT hndT hneE
  rw [hRE] at h2
  exact h2

/- ---------------------------------------------------------------- -/
/- Claim theorems and witnesses are stated below                     -/
/- ---------------------------------------------------------------- -/

/-- C1: for a matrix rule set (positive ranks, binary flags, at least one
attribute cell) in which every attribute name resolves under the
name-to-id mapping and no `(rank, attr_id)` pair is duplicated, running
`matrix_json_to_tall` and then `tall_to_matrix_rows` with the inverse
id-to-name mapping succeeds and reproduces the original per-rank
attribute-name-to-flag content (the flattened `(rank, name, flag)` entries
of the output are a permutation of those of the input), and the composite
output is the same for every reordering of the rows and of the attribute
keys within rows. -/
theorem matrix_tall_roundtrip (rows : List MatrixRow) (cvid : Int)
    (n2i : String → Option Int) (i2n : Int → Option String)
    (hinv : ∀ n i, n2i n = some i ↔ i2n i = some n)
    (hres : ∀ e ∈ matrixEntries rows, (n2i e.2.1).isSome = true)
    (hnd : (resolvedPairs rows n2i).Nodup)
    (hrank : ∀ row ∈ rows, 0 < row.rank)
    (hflag : ∀ e ∈ matrixEntries rows, e.2.2 ≤ 1)
    (hne : matrixEntries rows ≠ []) :
    ∃ tall out,
      matrix_json_to_tall rows cvid n2i = .ok tall ∧
      tall_to_matrix_rows tall i2n = .ok out ∧
      (matrixEntries out).Perm (matrixEntries rows) ∧
      ∀ rows₂ : List MatrixRow, (∀ row ∈ rows₂, 0 < row.rank) →
        (matrixEntries rows₂).Perm (matrixEntries rows) →
        (matrix_json_to_tall rows₂ cvid n2i).bind
          (fun t => tall_to_matrix_rows t i2n) = .ok out := by
  obtain ⟨h1, h2⟩ := roundtrip_chain rows cvid n2i i2n hinv hres hnd hrank hflag hne
  have hkeys := entryKeys_nodup rows n2i i2n hinv hres hnd
  refine ⟨tallRules rows cvid n2i,
    ((matrixEntries rows).foldl insertEntry []).map fun g => ⟨g.1, g.2⟩,
    h1, h2, ?_, ?_⟩
  · rw [matrixEntries_map_groups]
    have hp := foldl_insert_flatten_perm (matrixEntries rows) [] hkeys
      (by simp [flattenGroups])
    simpa [flattenGroups] using hp
  · intro rows₂ hrank₂ hperm₂
    have hres₂ : ∀ e ∈ matrixEntries rows₂, (n2i e.2.1).isSome = true :=
      fun e he => hres e (hperm₂.mem_iff.1 he)
    have hflag₂ : ∀ e ∈ matrixEntries rows₂, e.2.2 ≤ 1 :=
      fun e he => hflag e (hperm₂.mem_iff.1 he)
    have hgm : ∀ (rs : List MatrixRow),
        (∀ e ∈ matrixEntries rs, (n2i e.2.1).isSome = true) →
        resolvedPairs rs n2i = (matrixEntries rs).map
          (fun e => (e.1, (n2i e.2.1).getD 0)) := by
      intro rs hrs
      rw [resolvedPairs_eq_filterMap]
      apply filterMap_eq_map_of_forall
      intro e he
      obtain ⟨i, hi⟩ := Option.isSome_iff_exists.1 (hrs e he)
      simp [hi]
    have hnd₂ : (resolvedPairs rows₂ n2i).Nodup := by
      rw [hgm rows₂ hres₂]
      refine ((hperm₂.map (fun e => (e.1, (n2i e.2.1).getD 0))).nodup_iff).2 ?_
      rw [← hgm rows hres]
      exact hnd
    have hne₂ : matrixEntries rows₂ ≠ [] := by
      intro h0
      rw [h0] at hperm₂
      exact hne hperm₂.symm.eq_nil
    obtain ⟨g1, g2⟩ := roundtrip_chain rows₂ cvid n2i i2n hinv hres₂ hnd₂
      hrank₂ hflag₂ hne₂
    have hkeys₂ := entryKeys_nodup rows₂ n2i i2n hinv hres₂ hnd₂
    have hfold : (matrixEntries rows₂).foldl insertEntry [] =
        (matrixEntries rows).foldl insertEntry [] :=
      foldl_insert_perm _ _ hperm₂ hkeys₂ []
    rw [g1]
    show tall_to_matrix_rows (tallRules rows₂ cvid n2i) i2n = _
    rw [g2, hfold]

/-- C9: whenever `matrix_json_to_tall` succeeds, the returned rule list is
non-empty, every rule carries the supplied config_version_id, a positive
rank, a match_type in {0,1} and an attr_id that the name-to-id mapping can
produce, and the `(rank, attr_id)` pairs are pairwise distinct. -/
theorem matrix_to_tall_success_invariants (rows : List MatrixRow) (cvid : Int)
    (n2i : String → Option Int) (tall : List ConfigPrecedenceRule)
    (h : matrix_json_to_tall rows cvid n2i = .ok tall) :
    tall ≠ [] ∧
    (∀ r ∈ tall, r.config_version_id = cvid ∧ 0 < r.rank ∧ r.match_type ≤ 1 ∧
      ∃ n, n2i n = some r.attr_id) ∧
    (tall.map fun r => (r.rank, r.attr_id)).Nodup := by
  rw [matrix_json_to_tall] at h
  cases hloop : rowsLoop cvid n2i rows [] [] with
  | error e => rw [hloop] at h; exact Except.noConfusion h
  | ok st =>
    rw [hloop] at h
    by_cases hemp : st.2.isEmpty = true
    · simp [hemp] at h
    · simp [hemp] at h
      obtain ⟨d, hd1, hp, hn, _⟩ :=
        rowsLoop_ok_inv cvid n2i rows [] st.1 [] st.2 hloop
      rw [List.nil_append] at hd1
      rw [← h, hd1]
      refine ⟨?_, hp, hn⟩
      intro h0
      exact hemp (by rw [hd1, h0]; rfl)

/-- C5: both conversions reject a repeated key on the first duplicate in
input order — matrix side on the first repeated `(rank, attr_id)` among the
resolved cells (given positive ranks and binary resolved flags), tall side
on the first repeated `(rank, attr_name)` among the resolved rules (given
positive ranks and binary match_types) — and on success no duplicate key
survives in either direction. -/
theorem duplicate_key_detection (cvid : Int) (n2i : String → Option Int)
    (i2n : Int → Option String) :
    (∀ (rows : List MatrixRow) (p : Int × Int),
      (∀ row ∈ rows, 0 < row.rank) →
      (∀ row ∈ rows, ∀ a ∈ row.attrs, ∀ i, n2i a.1 = some i → a.2 ≤ 1) →
      firstDup (resolvedPairs rows n2i) = some p →
      matrix_json_to_tall rows cvid n2i = .error (.duplicateKey p.1 p.2)) ∧
    (∀ (tall : List ConfigPrecedenceRule) (p : Int × String),
      (∀ r ∈ tall, 0 < r.rank) → (∀ r ∈ tall, r.match_type ≤ 1) →
      firstDup (namePairs tall i2n) = some p →
      tall_to_matrix_rows tall i2n = .error (.duplicateKeyName p.1 p.2)) ∧
    (∀ (rows : List MatrixRow) (tall : List ConfigPrecedenceRule),
      matrix_json_to_tall rows cvid n2i = .ok tall →
      (tall.map fun r => (r.rank, r.attr_id)).Nodup) ∧
    (∀ (tall : List ConfigPrecedenceRule) (out : List MatrixRow),
      tall_to_matrix_rows tall i2n = .ok out →
      (namePairs tall i2n).Nodup) := by
  refine ⟨?_, ?_, ?_, ?_⟩
  · intro rows p hr hf hfd
    rw [matrix_json_to_tall_eq rows cvid n2i hr hf, hfd]
  · intro tall p hr hm hfd
    rw [tall_to_matrix_rows, tallLoop_eq i2n tall [] [] hr hm]
    rw [firstDup] at hfd
    rw [hfd]
  · intro rows tall h
    rw [matrix_json_to_tall] at h
    cases hloop : rowsLoop cvid n2i rows [] [] with
    | error e => rw [hloop] at h; exact Except.noConfusion h
    | ok st =>
      rw [hloop] at h
      by_cases hemp : st.2.isEmpty = true
      · simp [hemp] at h
      · simp [hemp] at h
        obtain ⟨d, hd1, _, hn, _⟩ :=
          rowsLoop_ok_inv cvid n2i rows [] st.1 [] st.2 hloop
        rw [List.nil_append] at hd1
        rw [← h, hd1]
        exact hn
  · intro tall out h
    rw [tall_to_matrix_rows] at h
    cases hloop : tallLoop i2n tall [] [] with
    | error e => rw [hloop] at h; exact Except.noConfusion h
    | ok st => exact (tallLoop_ok_inv i2n tall [] [] st hloop).1

/-- C8: the permissive skip happens at different points in the two
directions — `matrix_json_to_tall` drops an unresolved attribute before
inspecting its flag (so an unresolved cell with any flag, even an invalid
one, is silently skipped and the result is as if the cell were absent),
while `tall_to_matrix_rows` validates match_type before resolving attr_id
(so a rule with unresolved attr_id and match_type outside {0,1} fails with
the InvalidMatchType error). -/
theorem unresolved_skip_asymmetry (cvid : Int) (n2i : String → Option Int)
    (i2n : Int → Option String) :
    (∀ (rank : Int) (name : String) (mt : Nat) (rest : List (String × Nat))
        (seen : List (Int × Int)) (tall : List ConfigPrecedenceRule),
      n2i name = none →
      rowStep cvid n2i rank ((name, mt) :: rest) seen tall =
        rowStep cvid n2i rank rest seen tall) ∧
    (∀ (rank : Int) (name : String) (mt : Nat) (attrs : List (String × Nat))
        (rows : List MatrixRow),
      n2i name = none →
      matrix_json_to_tall (⟨rank, (name, mt) :: attrs⟩ :: rows) cvid n2i =
        matrix_json_to_tall (⟨rank, attrs⟩ :: rows) cvid n2i) ∧
    (∀ (r : ConfigPrecedenceRule) (rest : List ConfigPrecedenceRule),
      i2n r.attr_id = none → 0 < r.rank → 1 < r.match_type →
      tall_to_matrix_rows (r :: rest) i2n =
        .error (.invalidMatchTypeId r.match_type r.attr_id)) := by
  refine ⟨?_, ?_, ?_⟩
  · intro rank name mt rest seen tall hni
    simp [rowStep, hni]
  · intro rank name mt attrs rows hni
    have hloop : rowsLoop cvid n2i (⟨rank, (name, mt) :: attrs⟩ :: rows) [] [] =
        rowsLoop cvid n2i (⟨rank, attrs⟩ :: rows) [] [] := by
      by_cases hrk : rank ≤ 0
      · simp [rowsLoop, hrk]
      · simp only [rowsLoop, hrk, if_false]
        rw [show rowStep cvid n2i rank ((name, mt) :: attrs) [] [] =
              rowStep cvid n2i rank attrs [] [] by simp [rowStep, hni]]
    rw [matrix_json_to_tall, matrix_json_to_tall, hloop]
  · intro r rest hni hrk hmt
    rw [tall_to_matrix_rows,
      show tallLoop i2n (r :: rest) [] [] =
          .error (.invalidMatchTypeId r.match_type r.attr_id) by
        simp [tallLoop, not_le.2 hrk, hmt]]

/-- C4 counterexample: a tall rule with rank 0 and match_type 2 fails with
the InvalidRank error, not with InvalidMatchType, because rank positivity
is checked first; likewise a matrix row with rank 0 and a resolved flag 2
fails with InvalidRank. So an out-of-domain flag does not cause
InvalidMatchType regardless of rank validity. -/
theorem invalid_match_type_not_regardless_of_rank :
    tall_to_matrix_rows [⟨1, 0, 5, 2⟩] i2nEx = .error (.invalidRank 0) ∧
    matrix_json_to_tall [⟨0, [("a", 2)]⟩] 1 n2iEx = .error (.invalidRank 0) ∧
    (ConvErr.invalidRank 0).isInvalidMatchType = false := by
  refine ⟨by decide, by decide, rfl⟩

theorem tallLoop_append_ok (i2n : Int → Option String)
    (l₁ l₂ : List ConfigPrecedenceRule) (seen : List (Int × String))
    (m : List (Int × List (String × Nat)))
    (st : List (Int × String) × List (Int × List (String × Nat)))
    (h : tallLoop i2n l₁ seen m = .ok st) :
    tallLoop i2n (l₁ ++ l₂) seen m = tallLoop i2n l₂ st.1 st.2 := by
  rw [tallLoop_append, h]

theorem rowsLoop_append_ok (cvid : Int) (n2i : String → Option Int)
    (l₁ l₂ : List MatrixRow) (seen : List (Int × Int))
    (tall : List ConfigPrecedenceRule)
    (st : List (Int × Int) × List ConfigPrecedenceRule)
    (h : rowsLoop cvid n2i l₁ seen tall = .ok st) :
    rowsLoop cvid n2i (l₁ ++ l₂) seen tall = rowsLoop cvid n2i l₂ st.1 st.2 := by
  rw [rowsLoop_append, h]

theorem rowStep_append_ok (cvid : Int) (n2i : String → Option Int) (rank : Int)
    (a₁ a₂ : List (String × Nat)) (seen : List (Int × Int))
    (tall : List ConfigPrecedenceRule)
    (st : List (Int × Int) × List ConfigPrecedenceRule)
    (h : rowStep cvid n2i rank a₁ seen tall = .ok st) :
    rowStep cvid n2i rank (a₁ ++ a₂) seen tall =
      rowStep cvid n2i rank a₂ st.1 st.2 := by
  rw [rowStep_append, h]

/-- C4 (amended): provided the rank of the offending row or rule is
positive (rank positivity is checked first) and processing reaches the
offending entry, a resolved flag / match_type outside {0,1} fails with
InvalidMatchType naming the offending attribute — irrespective of whether
the rank set is triangular-complete, which conversion never checks. -/
theorem invalid_match_type_detection (cvid : Int) (n2i : String → Option Int)
    (i2n : Int → Option String) :
    (∀ (pre : List ConfigPrecedenceRule) (r : ConfigPrecedenceRule)
        (rest : List ConfigPrecedenceRule)
        (st : List (Int × String) × List (Int × List (String × Nat))),
      tallLoop i2n pre [] [] = .ok st → 0 < r.rank → 1 < r.match_type →
      tall_to_matrix_rows (pre ++ r :: rest) i2n =
        .error (.invalidMatchTypeId r.match_type r.attr_id)) ∧
    (∀ (pre : List MatrixRow) (row : MatrixRow) (post : List MatrixRow)
        (a₁ : List (String × Nat)) (name : String) (mt : Nat)
        (a₂ : List (String × Nat)) (i : Int)
        (st : List (Int × Int) × List ConfigPrecedenceRule)
        (st₂ : List (Int × Int) × List ConfigPrecedenceRule),
      rowsLoop cvid n2i pre [] [] = .ok st →
      0 < row.rank →
      row.attrs = a₁ ++ (name, mt) :: a₂ →
      rowStep cvid n2i row.rank a₁ st.1 st.2 = .ok st₂ →
      n2i name = some i → 1 < mt →
      matrix_json_to_tall (pre ++ row :: post) cvid n2i =
        .error (.invalidMatchType mt name)) := by
  constructor
  · intro pre r rest st hpre hrk hmt
    rw [tall_to_matrix_rows, tallLoop_append_ok i2n pre (r :: rest) [] [] st hpre,
      show tallLoop i2n (r :: rest) st.1 st.2 =
          .error (.invalidMatchTypeId r.match_type r.attr_id) by
        simp [tallLoop, not_le.2 hrk, hmt]]
  · intro pre row post a₁ name mt a₂ i st st₂ hpre hrk hattrs hstep hni hmt
    rw [matrix_json_to_tall,
      rowsLoop_append_ok cvid n2i pre (row :: post) [] [] st hpre,
      show rowsLoop cvid n2i (row :: post) st.1 st.2 =
          .error (.invalidMatchType mt name) by
        simp only [rowsLoop, not_le.2 hrk, if_false]
        rw [hattrs,
          rowStep_append_ok cvid n2i row.rank a₁ ((name, mt) :: a₂)
            st.1 st.2 st₂ hstep,
          show rowStep cvid n2i row.rank ((name, mt) :: a₂) st₂.1 st₂.2 =
              .error (.invalidMatchType mt name) by simp [rowStep, hni, hmt]]]

/-- C3 (model-level): on the association-list model of the BTreeMaps the
output of `tall_to_matrix_rows` is grouped by rank in ascending order with
attribute names in lexicographic order inside a rank — this is what the
`BTreeMap` stage of the code produces before the inner map is poured into
the emitted row's `HashMap`, whose iteration order the claim cannot rely
on. -/
theorem tall_to_matrix_ordering_model :
    tall_to_matrix_rows [⟨1, 1, 2, 1⟩, ⟨1, 2, 3, 0⟩, ⟨1, 1, 1, 0⟩] i2nEx =
      .ok [⟨1, [("a", 0), ("b", 1)]⟩, ⟨2, [("c", 0)]⟩] := by decide

/-- C2 counterexample: for attr_count = 3, the rank set {1,2,3,5,6} — the
set {1,…,6} with rank 4 removed — has 5 distinct ranks, so the count check
fires first and the call fails with WrongRankCount (found 5, expected 6),
not with a RankGap expecting 4 as the claim states. -/
theorem triangular_missing_rank_cex :
    validate_ranks_contiguous_and_triangular (rulesOfRanks [1, 2, 3, 5, 6]) 3 =
      .error (.wrongRankCount 5 6 3) ∧
    (ValErr.wrongRankCount 5 6 3).isRankGap = false := by
  exact ⟨by decide, rfl⟩

/- ---------------------------------------------------------------- -/
/- Facts about the triangular validation                             -/
/- ---------------------------------------------------------------- -/

theorem contiguityCheck_eq (l : List Int) (s : Int) :
    contiguityCheck l s =
      match firstMismatch l s with
      | some p => .error (.rankGap p.1 p.2)
      | none => .ok () := by
  induction l generalizing s with
  | nil => simp [contiguityCheck, firstMismatch]
  | cons r rest ih =>
    by_cases h : r = s
    · simp [contiguityCheck, firstMismatch, h, ih]
    · simp [contiguityCheck, firstMismatch, h]

theorem contiguityCheck_ok_iff (l : List Int) (s : Int) :
    contiguityCheck l s = .ok () ↔ l = rangeInts s l.length := by
  induction l generalizing s with
  | nil => simp [contiguityCheck, rangeInts]
  | cons r rest ih =>
    simp only [contiguityCheck, List.length_cons, rangeInts]
    by_cases h : r = s
    · simp [h, ih]
    · simp [h]

theorem rangeInts_length (s : Int) (n : Nat) : (rangeInts s n).length = n := by
  induction n generalizing s with
  | zero => simp [rangeInts]
  | succ k ih => simp [rangeInts, ih]

theorem insertSortedDedup_mem (x : Int) (l : List Int) (y : Int) :
    y ∈ insertSortedDedup x l ↔ y = x ∨ y ∈ l := by
  induction l with
  | nil => simp [insertSortedDedup]
  | cons z rest ih =>
    simp only [insertSortedDedup]
    split_ifs with h1 h2
    · simp [List.mem_cons]
    · subst h2
      simp [List.mem_cons]
    · simp only [List.mem_cons, ih]
      tauto

theorem insertSortedDedup_sorted (x : Int) (l : List Int)
    (h : l.Sorted (· < ·)) : (insertSortedDedup x l).Sorted (· < ·) := by
  induction l with
  | nil => simp [insertSortedDedup]
  | cons y rest ih =>
    rw [List.sorted_cons] at h
    obtain ⟨hy, hrest⟩ := h
    simp only [insertSortedDedup]
    split_ifs with h1 h2
    · rw [List.sorted_cons]
      refine ⟨?_, by rw [List.sorted_cons]; exact ⟨hy, hrest⟩⟩
      intro b hb
      rcases List.mem_cons.1 hb with rfl | hb'
      · exact h1
      · exact lt_trans h1 (hy b hb')
    · rw [List.sorted_cons]
      exact ⟨hy, hrest⟩
    · rw [List.sorted_cons]
      refine ⟨?_, ih hrest⟩
      intro b hb
      rcases (insertSortedDedup_mem x rest b).1 hb with rfl | hb'
      · omega
      · exact hy b hb'

theorem distinctRanksSorted_spec (tall : List ConfigPrecedenceRule) :
    (distinctRanksSorted tall).Sorted (· < ·) ∧
    ∀ x, x ∈ distinctRanksSorted tall ↔ ∃ r ∈ tall, r.rank = x := by
  suffices h : ∀ (l : List ConfigPrecedenceRule) (acc : List Int),
      acc.Sorted (· < ·) →
      ((l.foldl (fun s r => insertSortedDedup r.rank s) acc).Sorted (· < ·) ∧
        ∀ x, x ∈ l.foldl (fun s r => insertSortedDedup r.rank s) acc ↔
          (∃ r ∈ l, r.rank = x) ∨ x ∈ acc) by
    obtain ⟨h1, h2⟩ := h tall [] (by simp)
    exact ⟨h1, fun x => by simpa using h2 x⟩
  intro l
  induction l with
  | nil =>
    intro acc hacc
    refine ⟨hacc, fun x => ?_⟩
    simp
  | cons r rest ih =>
    intro acc hacc
    obtain ⟨h1, h2⟩ := ih (insertSortedDedup r.rank acc)
      (insertSortedDedup_sorted r.rank acc hacc)
    refine ⟨h1, fun x => ?_⟩
    rw [List.foldl_cons, h2 x, insertSortedDedup_mem]
    simp only [List.mem_cons]
    constructor
    · rintro (⟨q, hq, hqx⟩ | hxr | hin)
      · exact Or.inl ⟨q, Or.inr hq, hqx⟩
      · exact Or.inl ⟨r, Or.inl rfl, hxr.symm⟩
      · exact Or.inr hin
    · rintro (⟨q, hq | hq, hqx⟩ | hin)
      · subst hq
        exact Or.inr (Or.inl hqx.symm)
      · exact Or.inl ⟨q, hq, hqx⟩
      · exact Or.inr (Or.inr hin)

theorem triangular_cast (A : Nat) :
    ((A * (A + 1) / 2 : Nat) : Int) = triangular A := by
  rw [triangular, Int.natCast_ediv]
  rfl

/-- C2 (amended): `validate_ranks_contiguous_and_triangular` computes
`T = attr_count * (attr_count + 1) / 2`, fails with EmptyInput exactly on
an empty rule slice, fails with WrongRankCount (reporting the found and
expected counts) whenever the number of distinct rank values differs from
T, otherwise fails with RankGap at the first sorted distinct rank that
differs from its expected position (reporting observed and expected), and
succeeds exactly when the distinct ranks are exactly 1, 2, …, T. For
attr_count = 3: the rank set {1,…,6} passes; the same set missing rank 4
has only 5 distinct ranks, so it fails with WrongRankCount (found 5,
expected 6) — the count check fires before any gap check; a six-element
rank set with its gap at 4, such as {1,2,3,5,6,7}, fails with RankGap
expecting 4; and a set of 7 distinct ranks fails with WrongRankCount
(found 7, expected 6). -/
theorem validate_triangular_spec (tall : List ConfigPrecedenceRule) (A : Nat) :
    (validate_ranks_contiguous_and_triangular tall A = .error .emptyInput ↔
      tall = []) ∧
    (tall ≠ [] → ((distinctRanksSorted tall).length : Int) ≠ triangular A →
      validate_ranks_contiguous_and_triangular tall A =
        .error (.wrongRankCount (distinctRanksSorted tall).length
          (triangular A) A)) ∧
    (∀ r e : Int, tall ≠ [] →
      ((distinctRanksSorted tall).length : Int) = triangular A →
      firstMismatch (distinctRanksSorted tall) 1 = some (r, e) →
      validate_ranks_contiguous_and_triangular tall A = .error (.rankGap r e)) ∧
    (validate_ranks_contiguous_and_triangular tall A = .ok () ↔
      tall ≠ [] ∧ distinctRanksSorted tall = rangeInts 1 (A * (A + 1) / 2)) ∧
    (distinctRanksSorted tall).Sorted (· < ·) ∧
    (∀ x, x ∈ distinctRanksSorted tall ↔ ∃ q ∈ tall, q.rank = x) ∧
    validate_ranks_contiguous_and_triangular (rulesOfRanks [1, 2, 3, 4, 5, 6]) 3 =
      .ok () ∧
    validate_ranks_contiguous_and_triangular (rulesOfRanks [1, 2, 3, 5, 6]) 3 =
      .error (.wrongRankCount 5 6 3) ∧
    validate_ranks_contiguous_and_triangular (rulesOfRanks [1, 2, 3, 5, 6, 7]) 3 =
      .error (.rankGap 5 4) ∧
    validate_ranks_contiguous_and_triangular (rulesOfRanks [1, 2, 3, 4, 5, 6, 7]) 3 =
      .error (.wrongRankCount 7 6 3) := by
  refine ⟨?_, ?_, ?_, ?_, (distinctRanksSorted_spec tall).1,
    (distinctRanksSorted_spec tall).2, by decide, by decide, by decide, by decide⟩
  · constructor
    · intro h
      cases tall with
      | nil => rfl
      | cons t ts =>
        exfalso
        rw [validate_ranks_contiguous_and_triangular] at h
        simp only [List.isEmpty_cons, Bool.false_eq_true, if_false] at h
        by_cases hlen : ((distinctRanksSorted (t :: ts)).length : Int) ≠
            triangular A
        · rw [if_pos hlen] at h
          simp at h
        · rw [if_neg hlen, contiguityCheck_eq] at h
          cases hfm : firstMismatch (distinctRanksSorted (t :: ts)) 1 with
          | none => rw [hfm] at h; simp at h
          | some p => rw [hfm] at h; simp at h
    · intro h
      subst h
      rfl
  · intro hne hlen
    cases tall with
    | nil => exact absurd rfl hne
    | cons t ts =>
      rw [validate_ranks_contiguous_and_triangular]
      simp only [List.isEmpty_cons, Bool.false_eq_true, if_false]
      rw [if_pos hlen]
  · intro r e hne hlen hfm
    cases tall with
    | nil => exact absurd rfl hne
    | cons t ts =>
      rw [validate_ranks_contiguous_and_triangular]
      simp only [List.isEmpty_cons, Bool.false_eq_true, if_false]
      rw [if_neg (not_not_intro hlen), contiguityCheck_eq, hfm]
  · constructor
    · intro h
      cases tall with
      | nil =>
        rw [validate_ranks_contiguous_and_triangular] at h
        simp at h
      | cons t ts =>
        refine ⟨by simp, ?_⟩
        rw [validate_ranks_contiguous_and_triangular] at h
        simp only [List.isEmpty_cons, Bool.false_eq_true, if_false] at h
        by_cases hlen : ((distinctRanksSorted (t :: ts)).length : Int) ≠
            triangular A
        · rw [if_pos hlen] at h
          simp at h
        · rw [if_neg hlen] at h
          push_neg at hlen
          have hctg := (contiguityCheck_ok_iff _ 1).1 h
          have hlen' : (distinctRanksSorted (t :: ts)).length =
              A * (A + 1) / 2 := by
            have h2 : ((distinctRanksSorted (t :: ts)).length : Int) =
                ((A * (A + 1) / 2 : Nat) : Int) := by
              rw [hlen, ← triangular_cast]
            exact_mod_cast h2
          rw [← hlen']
          exact hctg
    · rintro ⟨hne, hr⟩
      cases tall with
      | nil => exact absurd rfl hne
      | cons t ts =>
        rw [validate_ranks_contiguous_and_triangular]
        simp only [List.isEmpty_cons, Bool.false_eq_true, if_false]
        have hlen : ((distinctRanksSorted (t :: ts)).length : Int) =
            triangular A := by
          rw [hr, rangeInts_length, triangular_cast]
        rw [if_neg (not_not_intro hlen)]
        exact (contiguityCheck_ok_iff _ 1).2 (by rw [hr, rangeInts_length])

/- ---------------------------------------------------------------- -/
/- Value parser facts                                                -/
/- ---------------------------------------------------------------- -/

theorem parseOneParam_ok_inv (matchId : Int)
    (attrLookup : String → Option AttrMeta) (p : RawParam) (v : ConfigValue)
    (h : parseOneParam matchId attrLookup p = .ok v) :
    v.match_id = matchId ∧ v.role = "param" ∧
    ∃ meta, attrLookup p.key = some meta ∧ v.attr_id = meta.attr_id := by
  cases hl : attrLookup p.key with
  | none => simp only [parseOneParam, hl] at h; simp at h
  | some meta =>
    simp only [parseOneParam, hl] at h
    by_cases hrole : meta.role ≠ "param"
    · rw [if_pos hrole] at h; simp at h
    · rw [if_neg hrole] at h
      push_neg at hrole
      cases ht : parseTyped meta.data_type p.value with
      | error e => rw [ht] at h; simp at h
      | ok tv =>
        rw [ht] at h
        simp only [Except.ok.injEq] at h
        rw [← h]
        exact ⟨rfl, hrole, meta, rfl, rfl⟩

/-- C6 (amended): `parse_config_values` resolves the key, requires role
"param", and dispatches on the metadata's declared data type, ignoring
the raw parameter's own type tag: declared "int" parses "250" to Int 250
and rejects "250.5" with a type parse error; role "match" is rejected
with WrongRole before any parsing; declared "dec" parses "0.125" to Dec
0.125; "str" is accepted verbatim; "bool" accepts exactly the
case-sensitive literals "true"/"false"; "dt" parses with chrono's
semantics for `%Y-%m-%dT%H:%M:%SZ` — it accepts the canonical shape
YYYY-MM-DDTHH:MM:SSZ with a valid calendar date, but also chrono's
leniencies (unpadded numeric fields, whitespace before a numeric field,
second 60 as a leap second), while still requiring the exact `-`, `T`,
`:`, `Z` literals, a valid date, and no trailing input — so not exactly
the fixed format; any other declared type fails with UnsupportedDataType;
an unresolved key fails with UnknownAttribute. -/
theorem parse_config_values_dispatch :
    (∀ (matchId : Int) (lookup : String → Option AttrMeta) (p : RawParam)
        (meta : AttrMeta),
      lookup p.key = some meta → meta.role = "param" →
      meta.data_type = "int" → p.value = "250" →
      parseOneParam matchId lookup p =
        .ok ⟨matchId, meta.attr_id, "param", .int 250⟩) ∧
    (∀ (matchId : Int) (lookup : String → Option AttrMeta) (p : RawParam)
        (meta : AttrMeta),
      lookup p.key = some meta → meta.role = "param" →
      meta.data_type = "int" → p.value = "250.5" →
      parseOneParam matchId lookup p =
        .error (.typeParseError "int" "250.5")) ∧
    (∀ (matchId : Int) (lookup : String → Option AttrMeta) (p : RawParam)
        (meta : AttrMeta),
      lookup p.key = some meta → meta.role = "match" →
      parseOneParam matchId lookup p = .error (.wrongRole p.key "match")) ∧
    (∀ (matchId : Int) (lookup : String → Option AttrMeta) (p : RawParam)
        (meta : AttrMeta),
      lookup p.key = some meta → meta.role = "param" →
      meta.data_type = "dec" → p.value = "0.125" →
      parseOneParam matchId lookup p =
        .ok ⟨matchId, meta.attr_id, "param", .dec (0.125 : Rat)⟩) ∧
    (∀ raw : String, parseTyped "str" raw = .ok (.str raw)) ∧
    (∀ raw : String, parseTyped "bool" raw =
      if raw = "true" then .ok (.bool true)
      else if raw = "false" then .ok (.bool false)
      else .error (.typeParseError "bool" raw)) ∧
    (parseTyped "dt" "2024-02-29T23:59:59Z" =
        .ok (.dt ⟨2024, 2, 29, 23, 59, 59⟩) ∧
      parseTyped "dt" "2024-2-9T3:4:5Z" =
        .ok (.dt ⟨2024, 2, 9, 3, 4, 5⟩) ∧
      parseTyped "dt" "2024-12-31T23:59:60Z" =
        .ok (.dt ⟨2024, 12, 31, 23, 59, 60⟩) ∧
      parseTyped "dt" "2024- 2-09T03:04:05Z" =
        .ok (.dt ⟨2024, 2, 9, 3, 4, 5⟩) ∧
      parseTyped "dt" "2024-02-29 23:59:59Z" =
        .error (.typeParseError "dt" "2024-02-29 23:59:59Z") ∧
      parseTyped "dt" "2024-02-29T23:59:59" =
        .error (.typeParseError "dt" "2024-02-29T23:59:59") ∧
      parseTyped "dt" "2023-02-29T00:00:00Z" =
        .error (.typeParseError "dt" "2023-02-29T00:00:00Z") ∧
      parseTyped "dt" "2024-02-29T23:59:59.5Z" =
        .error (.typeParseError "dt" "2024-02-29T23:59:59.5Z") ∧
      parseTyped "dt" "2024-02-29T23:59:59Zx" =
        .error (.typeParseError "dt" "2024-02-29T23:59:59Zx")) ∧
    (∀ (dataType raw : String),
      dataType ∉ (["int", "dec", "str", "bool", "dt"] : List String) →
      parseTyped dataType raw = .error (.unsupportedDataType dataType)) ∧
    (∀ (matchId : Int) (lookup : String → Option AttrMeta) (p : RawParam),
      lookup p.key = none →
      parseOneParam matchId lookup p = .error (.unknownAttribute p.key)) ∧
    (∀ (matchId : Int) (lookup : String → Option AttrMeta)
        (k t₁ t₂ v : String),
      parseOneParam matchId lookup ⟨k, t₁, v⟩ =
        parseOneParam matchId lookup ⟨k, t₂, v⟩) ∧
    (∀ (matchId : Int) (lookup : String → Option AttrMeta) (p : RawParam),
      parse_config_values matchId [p] lookup =
        (parseOneParam matchId lookup p).map fun v => [v]) := by
  refine ⟨?_, ?_, ?_, ?_, ?_, ?_,
    ⟨by decide, by decide, by decide, by decide, by decide, by decide,
      by decide, by decide, by decide⟩,
    ?_, ?_, ?_, ?_⟩
  · intro matchId lookup p meta hl hrole hdt hval
    have hint : parseTyped "int" "250" = .ok (.int 250) := by decide
    simp [parseOneParam, hl, hrole, hdt, hval, hint]
  · intro matchId lookup p meta hl hrole hdt hval
    have hint : parseTyped "int" "250.5" =
        .error (.typeParseError "int" "250.5") := by decide
    simp [parseOneParam, hl, hrole, hdt, hval, hint]
  · intro matchId lookup p meta hl hrole
    have : meta.role ≠ "param" := by rw [hrole]; decide
    simp [parseOneParam, hl, this, hrole]
  · intro matchId lookup p meta hl hrole hdt hval
    have hdec : parseTyped "dec" "0.125" = .ok (.dec (0.125 : Rat)) := by
      simp [parseTyped, parseF64, parseDecimalCore, parseMantissa, digitsNat]
      norm_num
    simp [parseOneParam, hl, hrole, hdt, hval, hdec]
  · intro raw
    simp [parseTyped]
  · intro raw
    by_cases h1 : raw = "true"
    · simp [parseTyped, parseBoolLit, h1]
    · by_cases h2 : raw = "false"
      · simp [parseTyped, parseBoolLit, h1, h2]
      · simp [parseTyped, parseBoolLit, h1, h2]
  · intro dataType raw hmem
    simp only [List.mem_cons, List.not_mem_nil, or_false, not_or] at hmem
    obtain ⟨h1, h2, h3, h4, h5⟩ := hmem
    simp [parseTyped, h1, h2, h3, h4, h5]
  · intro matchId lookup p hl
    simp [parseOneParam, hl]
  · intro matchId lookup k t₁ t₂ v
    simp [parseOneParam]
  · intro matchId lookup p
    rw [parse_config_values]
    cases hone : parseOneParam matchId lookup p with
    | error e => simp [parse_config_values, hone, Except.map]
    | ok v => simp [parse_config_values, hone, Except.map]

/-- Counterexample to the original C6 wording "dt accepts exactly the
format YYYY-MM-DDTHH:MM:SSZ": chrono parses `%m`, `%d`, `%H`, `%M`, `%S`
unpadded, so the single-digit fields of "2024-2-9T3:4:5Z" are accepted,
and it allows second = 60 (a leap second), so "2024-12-31T23:59:60Z" is
accepted — both deviate from the fixed 20-character shape yet parse
successfully rather than failing with TypeParseError. -/
theorem dt_not_exact_format_cex :
    parseTyped "dt" "2024-2-9T3:4:5Z" = .ok (.dt ⟨2024, 2, 9, 3, 4, 5⟩) ∧
    parseTyped "dt" "2024-12-31T23:59:60Z" =
      .ok (.dt ⟨2024, 12, 31, 23, 59, 60⟩) := by
  exact ⟨by decide, by decide⟩

/-- C7: `parse_config_values` is fail-fast and atomic — if every parameter
of a prefix succeeds individually and the next parameter fails with error
e, the whole batch returns exactly `.error e` and no `ConfigValue` output,
whatever follows the failing parameter. -/
theorem parse_config_values_fail_fast (matchId : Int)
    (lookup : String → Option AttrMeta) (ps₁ : List RawParam) (p : RawParam)
    (ps₂ : List RawParam) (e : ParamErr)
    (hok : ∀ q ∈ ps₁, ∃ v, parseOneParam matchId lookup q = .ok v)
    (hfail : parseOneParam matchId lookup p = .error e) :
    parse_config_values matchId (ps₁ ++ p :: ps₂) lookup = .error e := by
  induction ps₁ with
  | nil => simp [parse_config_values, hfail]
  | cons q rest ih =>
    obtain ⟨v, hv⟩ := hok q (List.mem_cons_self _ _)
    have hrest := ih (fun x hx => hok x (List.mem_cons_of_mem _ hx))
    simp [parse_config_values, hv, hrest]

/-- C10: whenever `parse_config_values` succeeds it returns one
ConfigValue per raw parameter, in input order, each carrying the supplied
match_id, the resolved metadata's attr_id and role "param"; in particular
an empty batch succeeds with an empty output. -/
theorem parse_config_values_success_shape :
    (∀ (matchId : Int) (ps : List RawParam)
        (lookup : String → Option AttrMeta) (vs : List ConfigValue),
      parse_config_values matchId ps lookup = .ok vs →
      vs.length = ps.length ∧
      List.Forall₂ (fun (p : RawParam) (v : ConfigValue) =>
        v.match_id = matchId ∧ v.role = "param" ∧
        ∃ meta, lookup p.key = some meta ∧ v.attr_id = meta.attr_id) ps vs) ∧
    (∀ (matchId : Int) (lookup : String → Option AttrMeta),
      parse_config_values matchId [] lookup = .ok []) := by
  constructor
  · intro matchId ps
    induction ps with
    | nil =>
      intro lookup vs h
      simp only [parse_config_values, Except.ok.injEq] at h
      rw [← h]
      exact ⟨rfl, List.Forall₂.nil⟩
    | cons p rest ih =>
      intro lookup vs h
      rw [parse_config_values] at h
      cases hone : parseOneParam matchId lookup p with
      | error e => rw [hone] at h; simp at h
      | ok v =>
        rw [hone] at h
        cases hrest : parse_config_values matchId rest lookup with
        | error e => rw [hrest] at h; simp at h
        | ok vs' =>
          rw [hrest] at h
          simp only [Except.ok.injEq] at h
          obtain ⟨hlen, hfa⟩ := ih lookup vs' hrest
          rw [← h]
          exact ⟨by simp [hlen],
            List.Forall₂.cons
              (parseOneParam_ok_inv matchId lookup p v hone) hfa⟩
  · intro matchId lookup
    rfl

/- ---------------------------------------------------------------- -/
/- Witnesses at concrete inputs                                      -/
/- ---------------------------------------------------------------- -/

theorem n2iEx_i2nEx_inverse : ∀ n i, n2iEx n = some i ↔ i2nEx i = some n := by
  intro n i
  constructor
  · intro h
    by_cases h1 : n = "a"
    · subst h1
      obtain rfl := Option.some.inj h
      decide
    · by_cases h2 : n = "b"
      · subst h2
        obtain rfl := Option.some.inj h
        decide
      · by_cases h3 : n = "c"
        · subst h3
          obtain rfl := Option.some.inj h
          decide
        · rw [show n2iEx n = none from by simp [n2iEx, h1, h2, h3]] at h
          exact Option.noConfusion h
  · intro h
    by_cases h1 : i = 1
    · subst h1
      obtain rfl := Option.some.inj h
      decide
    · by_cases h2 : i = 2
      · subst h2
        obtain rfl := Option.some.inj h
        decide
      · by_cases h3 : i = 3
        · subst h3
          obtain rfl := Option.some.inj h
          decide
        · rw [show i2nEx i = none from by simp [i2nEx, h1, h2, h3]] at h
          exact Option.noConfusion h

theorem matrix_tall_roundtrip_witness :
    ∃ tall out,
      matrix_json_to_tall [⟨2, [("b", 1)]⟩, ⟨1, [("b", 0), ("a", 1)]⟩] 7 n2iEx =
        .ok tall ∧
      tall_to_matrix_rows tall i2nEx = .ok out ∧
      (matrixEntries out).Perm
        (matrixEntries [⟨2, [("b", 1)]⟩, ⟨1, [("b", 0), ("a", 1)]⟩]) ∧
      ∀ rows₂ : List MatrixRow, (∀ row ∈ rows₂, 0 < row.rank) →
        (matrixEntries rows₂).Perm
          (matrixEntries [⟨2, [("b", 1)]⟩, ⟨1, [("b", 0), ("a", 1)]⟩]) →
        (matrix_json_to_tall rows₂ 7 n2iEx).bind
          (fun t => tall_to_matrix_rows t i2nEx) = .ok out :=
  matrix_tall_roundtrip [⟨2, [("b", 1)]⟩, ⟨1, [("b", 0), ("a", 1)]⟩] 7 n2iEx
    i2nEx n2iEx_i2nEx_inverse (by decide) (by decide) (by decide) (by decide)
    (by decide)

theorem matrix_to_tall_success_invariants_witness :
    ([⟨7, 1, 1, 1⟩] : List ConfigPrecedenceRule) ≠ [] ∧
    (∀ r ∈ ([⟨7, 1, 1, 1⟩] : List ConfigPrecedenceRule),
      r.config_version_id = 7 ∧ 0 < r.rank ∧ r.match_type ≤ 1 ∧
      ∃ n, n2iEx n = some r.attr_id) ∧
    (([⟨7, 1, 1, 1⟩] : List ConfigPrecedenceRule).map
      fun r => (r.rank, r.attr_id)).Nodup :=
  matrix_to_tall_success_invariants [⟨1, [("a", 1)]⟩] 7 n2iEx [⟨7, 1, 1, 1⟩]
    (by decide)

theorem duplicate_key_detection_witness :
    matrix_json_to_tall [⟨1, [("a", 1)]⟩, ⟨1, [("a", 0)]⟩] 4 n2iEx =
      .error (.duplicateKey 1 1) ∧
    tall_to_matrix_rows [⟨1, 2, 1, 1⟩, ⟨1, 2, 1, 0⟩] i2nEx =
      .error (.duplicateKeyName 2 "a") :=
  ⟨(duplicate_key_detection 4 n2iEx i2nEx).1
      [⟨1, [("a", 1)]⟩, ⟨1, [("a", 0)]⟩] (1, 1) (by decide) (by decide)
      (by decide),
    (duplicate_key_detection 4 n2iEx i2nEx).2.1
      [⟨1, 2, 1, 1⟩, ⟨1, 2, 1, 0⟩] (2, "a") (by decide) (by decide)
      (by decide)⟩

theorem unresolved_skip_asymmetry_witness :
    matrix_json_to_tall [⟨1, [("zz", 7), ("a", 1)]⟩] 1 n2iEx =
      matrix_json_to_tall [⟨1, [("a", 1)]⟩] 1 n2iEx ∧
    tall_to_matrix_rows [⟨1, 1, 99, 7⟩] i2nEx =
      .error (.invalidMatchTypeId 7 99) :=
  ⟨(unresolved_skip_asymmetry 1 n2iEx i2nEx).2.1 1 "zz" 7 [("a", 1)] []
      (by decide),
    (unresolved_skip_asymmetry 1 n2iEx i2nEx).2.2 ⟨1, 1, 99, 7⟩ []
      (by decide) (by decide) (by decide)⟩

theorem invalid_match_type_detection_witness :
    tall_to_matrix_rows [⟨5, 2, 7, 3⟩] i2nEx =
      .error (.invalidMatchTypeId 3 7) ∧
    matrix_json_to_tall [⟨1, [("a", 2)]⟩] 1 n2iEx =
      .error (.invalidMatchType 2 "a") :=
  ⟨(invalid_match_type_detection 1 n2iEx i2nEx).1 [] ⟨5, 2, 7, 3⟩ []
      ([], []) (by decide) (by decide) (by decide),
    (invalid_match_type_detection 1 n2iEx i2nEx).2 [] ⟨1, [("a", 2)]⟩ [] []
      "a" 2 [] 1 ([], []) ([], []) (by decide) (by decide) (by decide)
      (by decide) (by decide) (by decide)⟩

theorem validate_triangular_spec_witness :
    validate_ranks_contiguous_and_triangular
      (rulesOfRanks [1, 2, 3, 5, 6, 7]) 3 = .error (.rankGap 5 4) :=
  (validate_triangular_spec (rulesOfRanks [1, 2, 3, 5, 6, 7]) 3).2.2.1 5 4
    (by decide) (by decide) (by decide)

theorem parse_config_values_dispatch_witness :
    parseOneParam 9 attrLookupEx ⟨"max_orders_day", "int", "250"⟩ =
      .ok ⟨9, 10, "param", .int 250⟩ :=
  (parse_config_values_dispatch).1 9 attrLookupEx
    ⟨"max_orders_day", "int", "250"⟩ ⟨10, "max_orders_day", "int", "param"⟩
    (by decide) rfl rfl rfl

theorem parse_config_values_fail_fast_witness :
    parse_config_values 9
      [⟨"max_orders_day", "int", "250"⟩, ⟨"max_orders_day", "int", "x"⟩,
        ⟨"max_orders_day", "int", "1"⟩] attrLookupEx =
      .error (.typeParseError "int" "x") :=
  parse_config_values_fail_fast 9 attrLookupEx
    [⟨"max_orders_day", "int", "250"⟩] ⟨"max_orders_day", "int", "x"⟩
    [⟨"max_orders_day", "int", "1"⟩] (.typeParseError "int" "x")
    (by
      intro q hq
      rcases List.mem_singleton.1 hq with rfl
      exact ⟨⟨9, 10, "param", .int 250⟩, by decide⟩)
    (by decide)

theorem parse_config_values_success_shape_witness :
    ([⟨9, 10, "param", .int 250⟩] : List ConfigValue).length =
      ([⟨"max_orders_day", "int", "250"⟩] : List RawParam).length ∧
    List.Forall₂ (fun (p : RawParam) (v : ConfigValue) =>
      v.match_id = 9 ∧ v.role = "param" ∧
      ∃ meta, attrLookupEx p.key = some meta ∧ v.attr_id = meta.attr_id)
      [⟨"max_orders_day", "int", "250"⟩] [⟨9, 10, "param", .int 250⟩] :=
  (parse_config_values_success_shape).1 9 [⟨"max_orders_day", "int", "250"⟩]
    attrLookupEx [⟨9, 10, "param", .int 250⟩] (by decide)
